import Mathlib

/-!
# KD-tree build and bounded k-NN search (HW1/part1/knn.cpp, HW1/part2/knn.hpp)

A shallow embedding of the scalar variant (`part1`) and of the generic, templated
variant (`part2`) of `buildKD` and `knnSearch`.

Modelling conventions.

* C++ `float` values are elements of a linearly ordered field `F`; every definition is
  polymorphic in `F`, so it runs on `ℚ` and is reasoned about on any ordered field.
  `std::sqrt` is a parameter `sqrt : F → F` of the vector distance.
* A `Node*` is a value of the inductive type `Node`; `nullptr` is `Node.nil`.
* `std::sort` is a parameter `S : StdSort α`: any function that, for a comparator that is
  a strict weak ordering, returns a permutation of its input in which no element is
  ordered before an earlier one. Which of several equivalent elements comes first is
  left open, as it is for `std::sort`.
* `std::priority_queue<PQItem, std::vector<PQItem>, std::less<PQItem>>` is a list of
  pairs: `push` adds a pair, `top` is the greatest pair for `std::pair`'s `operator<`,
  `pop` removes it. `top` of an empty queue is undefined in C++; the model returns
  `none`, and `knnSearch` returns `none` as soon as it would evaluate it.
* `Node::queryEmbedding` (a static member) is the explicit argument `q`;
  `runtime_dim()` is the field `Dim` of the vector instance of `Embedding_T`.
* `int K` is an integer; `int depth` is a natural number, as the callers start at depth 0
  and every recursive call passes `depth + 1`.
* Where the rounding of the float operations decides a property, the vector distance is
  taken with an explicit rounding function `fl` applied to the result of every operation
  (`Part2.roundedVectorEmbedding`); `flushUnderflow` is the underflow part of binary32
  rounding.
* `v[i]` on a `std::vector<float>` is `List.getD v i 0`; reading past the end is
  undefined in C++, and the theorems that depend on coordinates assume embeddings of
  length `D`.
-/

namespace KNN

/-! ## Data model -/

/-- KD-tree node (`struct Node`): embedding, idx, left and right child; `nil` is `nullptr`. -/
inductive Node (E : Type) where
  | nil : Node E
  | node (embedding : E) (idx : Int) (left right : Node E) : Node E
  deriving Repr, DecidableEq

/-- Test `!node` of a pointer. -/
def Node.isNull {E : Type} : Node E → Bool
  | .nil => true
  | .node _ _ _ _ => false

/-- The (embedding, idx) pairs stored in a tree, in order left subtree, node, right subtree. -/
def Node.toList {E : Type} : Node E → List (E × Int)
  | .nil => []
  | .node e i l r => l.toList ++ (e, i) :: r.toList

/-- Number of nodes of a tree. -/
def Node.size {E : Type} : Node E → Nat
  | .nil => 0
  | .node _ _ l r => l.size + 1 + r.size

/-- Height of a tree: 0 for the empty tree, 1 for a single node. -/
def Node.height {E : Type} : Node E → Nat
  | .nil => 0
  | .node _ _ l r => max l.height r.height + 1

/-- Priority-queue item `using PQItem = std::pair<float, int>`: (distance, idx). -/
abbrev PQItem (F : Type) := F × Int

/-- The `MaxHeap` alias: the pairs currently held by the priority queue. -/
abbrev MaxHeap (F : Type) := List (PQItem F)

section Defs

variable {F : Type} [LinearOrderedField F]

/-- The comparison `std::less<PQItem>`, that is `operator<` of `std::pair<float,int>`:
first components, then second components. -/
def pqLess (a b : PQItem F) : Bool :=
  decide (a.1 < b.1) || (!decide (b.1 < a.1) && decide (a.2 < b.2))

/-- Member `heap.top()`: the greatest pair under `pqLess`; `none` on an empty queue. -/
def MaxHeap.top : MaxHeap F → Option (PQItem F)
  | [] => none
  | x :: xs => some (xs.foldl (fun m y => if pqLess m y then y else m) x)

/-- Member `heap.pop()`: removes the pair that `top` returns. -/
def MaxHeap.pop (h : MaxHeap F) : MaxHeap F :=
  match MaxHeap.top h with
  | none => h
  | some t => h.erase t

/-- Member `heap.push(x)`. -/
def MaxHeap.push (h : MaxHeap F) (x : PQItem F) : MaxHeap F := x :: h

/-- Requirement `Compare` of `std::sort`: the comparator is a strict weak ordering. -/
def StrictWeak {α : Type} (lt : α → α → Bool) : Prop :=
  (∀ a, lt a a = false) ∧
  (∀ a b c, lt a b = true → lt b c = true → lt a c = true) ∧
  (∀ a b c, lt a b = false → lt b c = false → lt a c = false)

/-- Contract of `std::sort(first, last, comp)`: for a strict weak ordering the result is a
permutation of the input in which no element is ordered before an earlier one. -/
structure StdSort (α : Type) where
  /-- The sorting function. -/
  sort : (α → α → Bool) → List α → List α
  /-- The result is a permutation of the input. -/
  perm : ∀ lt l, StrictWeak lt → (sort lt l).Perm l
  /-- The result is ordered. -/
  sorted : ∀ lt l, StrictWeak lt → (sort lt l).Pairwise (fun a b => lt b a = false)

/-- The update of the accumulator at a visited node (part1 lines 88-93, part2 lines 206-211):
push while fewer than `K` pairs are held, otherwise replace the top when `d` is strictly
smaller than the top distance. `none` when `top` of an empty queue would be read. -/
def heapUpdate (K : Int) (heap : MaxHeap F) (d : F) (idx : Int) : Option (MaxHeap F) :=
  if (heap.length : Int) < K then
    some (MaxHeap.push heap (d, idx))
  else
    match MaxHeap.top heap with
    | none => none
    | some t =>
      if d < t.1 then some (MaxHeap.push (MaxHeap.pop heap) (d, idx))
      else some heap

/-- The test guarding the far side (part1 line 97, part2 line 218):
`(int)heap.size() < K || d_split < heap.top().first`; `none` when `top` of an empty
queue would be read. -/
def exploreFar (K : Int) (heap : MaxHeap F) (d_split : F) : Option Bool :=
  if (heap.length : Int) < K then some true
  else
    match MaxHeap.top heap with
    | none => none
    | some t => some (decide (d_split < t.1))

end Defs

/-! ## Scalar variant: HW1/part1/knn.cpp -/

namespace Part1

section Defs

variable {F : Type} [LinearOrderedField F]

/-- Function `distance` (part1 lines 10-13): `std::abs(a - b)`. -/
def distance (a b : F) : F := abs (a - b)

/-- Function `getCoordinate` (part1 lines 16-19): the scalar itself. -/
def getCoordinate (e : F) (_axis : Nat) : F := e

/-- The comparator lambda of `buildKD` (part1 lines 32-36). -/
def itemLess (a b : F × Int) : Bool :=
  if a.1 < b.1 then true
  else if a.1 > b.1 then false
  else decide (a.2 < b.2)

/-- Body of `buildKD` (part1 lines 22-54) with an explicit recursion budget. `items[mid]`
is `sorted.get? mid`; it is always defined, as `mid` is below the length of the sorted
list. -/
def buildKDAux (S : StdSort (F × Int)) : Nat → List (F × Int) → Nat → Node F
  | 0, _, _ => Node.nil
  | fuel + 1, items, depth =>
    if items.isEmpty then Node.nil
    else
      let sorted := S.sort itemLess items
      let n := sorted.length
      let mid := (n - 1) / 2
      match sorted.get? mid with
      | none => Node.nil
      | some m =>
        let left := sorted.take mid
        let right := sorted.drop (mid + 1)
        Node.node m.1 m.2 (buildKDAux S fuel left (depth + 1))
          (buildKDAux S fuel right (depth + 1))

/-- Function `buildKD` (part1 lines 22-54). The budget `items.length` is never used up,
as each recursive call receives a strictly shorter list. -/
def buildKD (S : StdSort (F × Int)) (items : List (F × Int)) (depth : Nat) : Node F :=
  buildKDAux S items.length items depth

/-- Function `knnSearch` (part1 lines 65-100); `q` is `Node::queryEmbedding`.
`nearC == node->left` compares pointers: it holds when the left child was chosen, and
also when the right child was chosen and both children are null. -/
def knnSearch (q : F) : Node F → Nat → Int → MaxHeap F → Option (MaxHeap F)
  | .nil, _, _, heap => some heap
  | .node embedding idx left right, depth, K, heap =>
    let chooseLeft : Bool := decide (q < embedding)
    let nearIsLeft : Bool := chooseLeft || (left.isNull && right.isNull)
    let afterNear :=
      if chooseLeft then knnSearch q left (depth + 1) K heap
      else knnSearch q right (depth + 1) K heap
    afterNear.bind fun heap1 =>
    let d := distance q embedding
    (heapUpdate K heap1 d idx).bind fun heap2 =>
    let d_split := distance q embedding
    (exploreFar K heap2 d_split).bind fun go =>
    if go then
      if nearIsLeft then knnSearch q right (depth + 1) K heap2
      else knnSearch q left (depth + 1) K heap2
    else some heap2

end Defs

end Part1

/-! ## Generic variant: HW1/part2/knn.hpp -/

namespace Part2

/-- The capability set the template code uses for an embedding type `T`: the static members
`Embedding_T<T>::Dim` and `Embedding_T<T>::distance`, and `getCoordinate<T>`. -/
structure Embedding_T (E F : Type) where
  /-- Static member `Dim()`. -/
  Dim : Nat
  /-- Static member `distance(a, b)`. -/
  distance : E → E → F
  /-- Template function `getCoordinate(e, axis)`. -/
  getCoordinate : E → Nat → F

section Defs

variable {F : Type} [LinearOrderedField F]

/-- Specialisation `Embedding_T<float>` (part2 lines 14-23) and the scalar branch of
`getCoordinate` (line 56). -/
def scalarEmbedding : Embedding_T F F where
  Dim := 1
  distance := fun a b => abs (a - b)
  getCoordinate := fun e _ => e

/-- The loop of `Embedding_T<std::vector<float>>::distance` (part2 lines 41-46):
the sum of `(a[i] - b[i]) * (a[i] - b[i])` for `i` from 0 to `Dim() - 1`. -/
def sumSquares (D : Nat) (a b : List F) : F :=
  (List.range D).foldl
    (fun s i => s + (a.getD i 0 - b.getD i 0) * (a.getD i 0 - b.getD i 0)) 0

/-- Specialisation `Embedding_T<std::vector<float>>` (part2 lines 33-49) and the vector
branch of `getCoordinate` (line 58); `D` is the value of `runtime_dim()`. -/
def vectorEmbedding (sqrt : F → F) (D : Nat) : Embedding_T (List F) F where
  Dim := D
  distance := fun a b => sqrt (sumSquares D a b)
  getCoordinate := fun e axis => e.getD axis 0

variable {E : Type}

/-- The loop of the comparator lambda (part2 lines 108-115) over the remaining values of
`i`: the first axis `(axis + i) % d` on which the coordinates differ decides; `false`
when the loop runs out. -/
def itemLessLoop (ops : Embedding_T E F) (axis d : Nat) (A B : E × Int) : List Nat → Bool
  | [] => false
  | i :: rest =>
    let ax := (axis + i) % d
    let va := ops.getCoordinate A.1 ax
    let vb := ops.getCoordinate B.1 ax
    if va < vb then true
    else if va > vb then false
    else itemLessLoop ops axis d A B rest

/-- The comparator lambda of `buildKD` (part2 lines 107-116), `i` running over `0 .. d-1`. -/
def itemLess (ops : Embedding_T E F) (axis d : Nat) (A B : E × Int) : Bool :=
  itemLessLoop ops axis d A B (List.range d)

/-- The split axis (part2 lines 103 and 195): `(d == 0) ? 0 : (depth % d)`. -/
def splitAxis (d depth : Nat) : Nat := if d = 0 then 0 else depth % d

/-- Body of `buildKD` (part2 lines 94-133) with an explicit recursion budget. `items[mid]`
is `sorted.get? mid`; it is always defined, as `mid` is below the length of the sorted
list. -/
def buildKDAux (S : StdSort (E × Int)) (ops : Embedding_T E F) :
    Nat → List (E × Int) → Nat → Node E
  | 0, _, _ => Node.nil
  | fuel + 1, items, depth =>
    if items.isEmpty then Node.nil
    else
      let d := ops.Dim
      let axis := splitAxis d depth
      let sorted := S.sort (itemLess ops axis d) items
      let n := sorted.length
      let mid := n / 2
      match sorted.get? mid with
      | none => Node.nil
      | some m =>
        let left := sorted.take mid
        let right := sorted.drop (mid + 1)
        Node.node m.1 m.2 (buildKDAux S ops fuel left (depth + 1))
          (buildKDAux S ops fuel right (depth + 1))

/-- Function `buildKD` (part2 lines 94-133). The budget `items.length` is never used up,
as each recursive call receives a strictly shorter list. -/
def buildKD (S : StdSort (E × Int)) (ops : Embedding_T E F) (items : List (E × Int))
    (depth : Nat) : Node E :=
  buildKDAux S ops items.length items depth

/-- Function `knnSearch` (part2 lines 179-221); `q` is `Node<T>::queryEmbedding`.
`nearC == node->left` compares pointers: it holds when the left child was chosen, and
also when the right child was chosen and both children are null. -/
def knnSearch (ops : Embedding_T E F) (q : E) :
    Node E → Nat → Int → MaxHeap F → Option (MaxHeap F)
  | .nil, _, _, heap => some heap
  | .node embedding idx left right, depth, K, heap =>
    let d := ops.Dim
    let axis := splitAxis d depth
    let q_ax := ops.getCoordinate q axis
    let x_ax := ops.getCoordinate embedding axis
    let chooseLeft : Bool := decide (q_ax < x_ax)
    let nearIsLeft : Bool := chooseLeft || (left.isNull && right.isNull)
    let dist := ops.distance q embedding
    (heapUpdate K heap dist idx).bind fun heap1 =>
    let afterNear :=
      if chooseLeft then knnSearch ops q left (depth + 1) K heap1
      else knnSearch ops q right (depth + 1) K heap1
    afterNear.bind fun heap2 =>
    let d_split := abs (q_ax - x_ax)
    (exploreFar K heap2 d_split).bind fun go =>
    if go then
      if nearIsLeft then knnSearch ops q right (depth + 1) K heap2
      else knnSearch ops q left (depth + 1) K heap2
    else some heap2

end Defs

end Part2

/-! ## A concrete sorting function -/

/-- Insertion sort as an instance of the `std::sort` contract, used to run the model. -/
def insertionStdSort (α : Type) : StdSort α where
  sort := fun lt l => l.insertionSort (fun a b => lt b a = false)
  perm := fun lt l _ => List.perm_insertionSort _ l
  sorted := fun lt l h => by
    have htot : IsTotal α (fun a b => lt b a = false) := ⟨fun a b => by
      cases hab : lt a b
      · exact Or.inr rfl
      · cases hba : lt b a
        · exact Or.inl rfl
        · have := h.2.1 a b a hab hba
          rw [h.1 a] at this
          exact absurd this (by decide)⟩
    have htr : IsTrans α (fun a b => lt b a = false) := ⟨fun a b c hab hbc =>
      h.2.2 c b a hbc hab⟩
    exact List.sorted_insertionSort (fun a b => lt b a = false) l

/-! ## Properties of trees the claims speak about -/

/-- The (embedding, idx) pair held by the root node; `none` for the empty tree. -/
def Node.rootItem {E : Type} : Node E → Option (E × Int)
  | .nil => none
  | .node e i _ _ => some (e, i)

/-- Field `left` of a node (the empty tree has none, read as the empty tree). -/
def Node.leftChild {E : Type} : Node E → Node E
  | .nil => .nil
  | .node _ _ l _ => l

/-- Field `right` of a node (the empty tree has none, read as the empty tree). -/
def Node.rightChild {E : Type} : Node E → Node E
  | .nil => .nil
  | .node _ _ _ r => r

/-- Balanced split sizes at every node: with `n` the number of nodes of the subtree rooted
at a node, its two child subtrees have `floor((n-1)/2)` and `ceil((n-1)/2)` nodes in some
order; their sizes sum to `n - 1` and differ by at most 1. -/
def Node.BalancedSplit {E : Type} : Node E → Prop
  | .nil => True
  | .node e i l r =>
    let n := (Node.node e i l r).size
    ((l.size = (n - 1) / 2 ∧ r.size = (n - 1 + 1) / 2) ∨
      (l.size = (n - 1 + 1) / 2 ∧ r.size = (n - 1) / 2)) ∧
    l.size + r.size = n - 1 ∧
    l.size ≤ r.size + 1 ∧ r.size ≤ l.size + 1 ∧
    l.BalancedSplit ∧ r.BalancedSplit

/-- Partition invariant of a tree whose root is at depth `t`, for the coordinate function
`coord` and dimension `D`: at every node, at depth `t'` say, every item of the left subtree
has coordinate `t' % D` at most the node's, and every item of the right subtree has
coordinate `t' % D` at least the node's. -/
def Node.Partitioned {E F : Type} [LinearOrderedField F] (coord : E → Nat → F)
    (D : Nat) : Node E → Nat → Prop
  | .nil, _ => True
  | .node e _ l r, t =>
    (∀ x ∈ l.toList, coord x.1 (t % D) ≤ coord e (t % D)) ∧
    (∀ x ∈ r.toList, coord e (t % D) ≤ coord x.1 (t % D)) ∧
    Node.Partitioned coord D l (t + 1) ∧ Node.Partitioned coord D r (t + 1)

/-- Median convention of the scalar builder, with `k n` the 0-indexed position of the
median among `n` ordered items: the root holds the element at position `k n` of the
ordered items, the left subtree is the tree built from the `k n` elements before it and
the right subtree the tree built from the `n - 1 - k n` elements after it. -/
def Part1.MedianSplit {F : Type} [LinearOrderedField F] (k : Nat → Nat)
    (S : StdSort (F × Int)) (items : List (F × Int)) (depth : Nat) : Prop :=
  let t := Part1.buildKD S items depth
  let sorted := S.sort Part1.itemLess items
  let n := items.length
  t.rootItem = sorted.get? (k n) ∧
  t.leftChild = Part1.buildKD S (sorted.take (k n)) (depth + 1) ∧
  t.rightChild = Part1.buildKD S (sorted.drop (k n + 1)) (depth + 1) ∧
  t.leftChild.size = k n ∧ t.rightChild.size = n - 1 - k n

/-! ## Specification of the search result -/

/-- The (distance, idx) pair of every item, for the query `q` and distance function `dist`:
the candidates a brute-force search looks at. -/
def candidates {E F : Type} (dist : E → E → F) (q : E) (items : List (E × Int)) :
    List (PQItem F) :=
  items.map (fun it => (dist q it.1, it.2))

/-- Brute-force reference of the spec: compute the distance from `q` to every item, order
the distances ascending and keep the first `K` of them, that is the `min(K, N)` smallest. -/
def bruteForce {E F : Type} [LinearOrderedField F] (dist : E → E → F) (q : E) (K : Nat)
    (items : List (E × Int)) : List F :=
  ((items.map (fun it => dist q it.1)).insertionSort (fun a b => a ≤ b)).take K

/-- The accumulator `h` holds `K` nearest of the candidates `A`: the candidates split into
`h` and a rest `R`, at most `K` pairs are held, the rest is empty while fewer than `K` are
held, and no pair of the rest is nearer than a held pair. -/
def KBest {F : Type} [LinearOrderedField F] (K : Int) (h : MaxHeap F)
    (A : List (PQItem F)) : Prop :=
  ∃ R : List (PQItem F), (h ++ R).Perm A ∧ (h.length : Int) ≤ K ∧
    ((h.length : Int) < K → R = []) ∧ ∀ x ∈ h, ∀ y ∈ R, x.1 ≤ y.1

/-! ## The near and far child of a visited node -/

/-- The near child of the scalar search (part1 line 80):
`(q < node->embedding) ? node->left : node->right`. -/
def Part1.nearChild {F : Type} [LinearOrderedField F] (q : F) : Node F → Node F
  | .nil => .nil
  | .node embedding _ left right => if q < embedding then left else right

/-- The far child of the scalar search (part1 line 81):
`(nearC == node->left) ? node->right : node->left`. The comparison is one of pointers: it
holds when the left child was chosen as near, and also when the right child was chosen and
both children are null. -/
def Part1.farChild {F : Type} [LinearOrderedField F] (q : F) : Node F → Node F
  | .nil => .nil
  | .node embedding _ left right =>
    let chooseLeft : Bool := decide (q < embedding)
    let nearIsLeft : Bool := chooseLeft || (left.isNull && right.isNull)
    if nearIsLeft then right else left

/-- The near child of the generic search (part2 lines 198-201):
`(q_ax < x_ax) ? node->left : node->right`. -/
def Part2.nearChild {E F : Type} [LinearOrderedField F] (ops : Part2.Embedding_T E F)
    (q : E) : Node E → Nat → Node E
  | .nil, _ => .nil
  | .node embedding _ left right, depth =>
    let axis := Part2.splitAxis ops.Dim depth
    let q_ax := ops.getCoordinate q axis
    let x_ax := ops.getCoordinate embedding axis
    if q_ax < x_ax then left else right

/-- The far child of the generic search (part2 line 202):
`(nearC == node->left) ? node->right : node->left`, a comparison of pointers as in the
scalar variant. -/
def Part2.farChild {E F : Type} [LinearOrderedField F] (ops : Part2.Embedding_T E F)
    (q : E) : Node E → Nat → Node E
  | .nil, _ => .nil
  | .node embedding _ left right, depth =>
    let axis := Part2.splitAxis ops.Dim depth
    let q_ax := ops.getCoordinate q axis
    let x_ax := ops.getCoordinate embedding axis
    let chooseLeft : Bool := decide (q_ax < x_ax)
    let nearIsLeft : Bool := chooseLeft || (left.isNull && right.isNull)
    if nearIsLeft then right else left

/-- The gap `d_split` of the generic search at a node (part2 lines 194-199 and 217):
`std::abs(q_ax - x_ax)` on the split axis of the node's depth. -/
def Part2.splitGap {E F : Type} [LinearOrderedField F] (ops : Part2.Embedding_T E F)
    (q embedding : E) (depth : Nat) : F :=
  abs (ops.getCoordinate q (Part2.splitAxis ops.Dim depth) -
    ops.getCoordinate embedding (Part2.splitAxis ops.Dim depth))

/-- Soundness of the pruning bound in a tree whose root is at depth `t`: at every node the gap
that `knnSearch` computes is at most the distance from the query to every item stored in the
subtree that `knnSearch` takes as the far child of that node. -/
def Part2.PruneBoundSound {E F : Type} [LinearOrderedField F] (ops : Part2.Embedding_T E F)
    (q : E) : Node E → Nat → Prop
  | .nil, _ => True
  | .node e i l r, t =>
    (∀ p ∈ (Part2.farChild ops q (.node e i l r) t).toList,
      Part2.splitGap ops q e t ≤ ops.distance q p.1) ∧
    Part2.PruneBoundSound ops q l (t + 1) ∧ Part2.PruneBoundSound ops q r (t + 1)

/-- The input list ordered ascending by embedding and, among equal embeddings, ascending by
idx: the order an in-order traversal of the scalar tree is compared with. -/
def sortedByEmbeddingThenIdx {F : Type} [LinearOrderedField F] (items : List (F × Int)) :
    List (F × Int) :=
  items.insertionSort (fun a b => a.1 < b.1 ∨ (a.1 = b.1 ∧ a.2 ≤ b.2))

/-! ## The search procedure as the spec words it -/

/-- Reference search procedure of the spec (section 4.4), for the capability set `ops`: at a
node, take the axis `depth mod D` (0 when `D = 0`), let near be the left child when the
query coordinate is less than the node coordinate and the right child otherwise, far the
other child; recurse into near first; then evaluate the node itself (insert while fewer
than `K` pairs are held, else replace the worst when strictly nearer); then recurse into
far only if fewer than `K` pairs are held or the gap is strictly less than the worst
distance. -/
def knnSearchRef {E F : Type} [LinearOrderedField F] (ops : Part2.Embedding_T E F) (q : E) :
    Node E → Nat → Int → MaxHeap F → Option (MaxHeap F)
  | .nil, _, _, heap => some heap
  | .node embedding idx left right, depth, K, heap =>
    let axis := if ops.Dim = 0 then 0 else depth % ops.Dim
    let q_ax := ops.getCoordinate q axis
    let x_ax := ops.getCoordinate embedding axis
    let afterNear :=
      if q_ax < x_ax then knnSearchRef ops q left (depth + 1) K heap
      else knnSearchRef ops q right (depth + 1) K heap
    afterNear.bind fun heap1 =>
    (heapUpdate K heap1 (ops.distance q embedding) idx).bind fun heap2 =>
    (exploreFar K heap2 (abs (q_ax - x_ax))).bind fun go =>
    if go then
      if q_ax < x_ax then knnSearchRef ops q right (depth + 1) K heap2
      else knnSearchRef ops q left (depth + 1) K heap2
    else some heap2

/-! ## The axis arguments of the coordinate reads -/

/-- The axis arguments of the calls of `getCoordinate` in the comparator of the generic
`buildKD` at depth `depth` (part2 lines 108-111): `(axis + i) % d` for `i` from 0 to `d - 1`,
passed to both calls of an iteration. -/
def Part2.comparatorAxes (d depth : Nat) : List Nat :=
  (List.range d).map (fun i => (Part2.splitAxis d depth + i) % d)

/-- The axis arguments of the two calls of `getCoordinate` that the generic `knnSearch`
makes at a node at depth `depth` (part2 lines 198-199). -/
def Part2.searchAxes (d depth : Nat) : List Nat :=
  [Part2.splitAxis d depth, Part2.splitAxis d depth]

/-- Every axis argument of `getCoordinate`, in the comparator of `buildKD` and in
`knnSearch`, at depth `depth` and dimension `d`, lies in `[0, d)`. -/
def Part2.AxesInRange (d depth : Nat) : Prop :=
  (∀ ax ∈ Part2.comparatorAxes d depth, ax < d) ∧ (∀ ax ∈ Part2.searchAxes d depth, ax < d)

/-! ## Rounding in the vector distance -/

/-- Specialisation `Embedding_T<std::vector<float>>` (part2 lines 33-49) with the result of
every float operation of `distance` passed through a rounding function `fl`: the difference
`a[i] - b[i]`, the product `d * d`, the sum `s + d * d` and the square root. With `fl` the
identity this is `vectorEmbedding`. -/
def Part2.roundedVectorEmbedding {F : Type} [LinearOrderedField F] (fl : F → F)
    (sqrt : F → F) (D : Nat) : Part2.Embedding_T (List F) F where
  Dim := D
  distance := fun a b =>
    fl (sqrt ((List.range D).foldl
      (fun s i => fl (s + fl (fl (a.getD i 0 - b.getD i 0) * fl (a.getD i 0 - b.getD i 0))))
      0))
  getCoordinate := fun e axis => e.getD axis 0

/-- What is assumed of the rounding of the float operations: it is monotone, commutes with
negation and leaves its own results unchanged (round to nearest of IEEE 754 has these
properties; overflow to infinity is outside the model). -/
def IsRounding {F : Type} [LinearOrderedField F] (fl : F → F) : Prop :=
  (∀ x y, x ≤ y → fl x ≤ fl y) ∧ (∀ x, fl (-x) = -fl x) ∧ (∀ x, fl (fl x) = fl x)

/-- The gaps survive the rounded distance computation: for every item and every axis below
`D`, the value `g = |q[a] - e[a]|` is a result of rounding (`fl g = g`, so that the float
subtraction yields it exactly) and is not lost by the rounded squaring and square root,
`g ≤ fl (sqrt (fl (g * g)))`. In binary32 the second part fails when `g * g` underflows. -/
def Part2.GapSurvives {F : Type} [LinearOrderedField F] (fl : F → F) (sqrt : F → F)
    (D : Nat) (q : List F) (items : List (List F × Int)) : Prop :=
  ∀ it ∈ items, ∀ a, a < D →
    fl (abs (q.getD a 0 - it.1.getD a 0)) = abs (q.getD a 0 - it.1.getD a 0) ∧
    abs (q.getD a 0 - it.1.getD a 0) ≤
      fl (sqrt (fl (abs (q.getD a 0 - it.1.getD a 0) * abs (q.getD a 0 - it.1.getD a 0))))

section Lemmas

variable {F : Type} [LinearOrderedField F]

theorem Part1.itemLess_eq_true_scalar (a b : F × Int) :
    Part1.itemLess a b = true ↔ a.1 < b.1 ∨ (a.1 = b.1 ∧ a.2 < b.2) := by
  unfold Part1.itemLess
  rcases lt_trichotomy a.1 b.1 with h | h | h
  · simp [h]
  · simp [h]
  · simp [h, not_lt_of_gt h, ne_of_gt h]

theorem Part1.itemLess_eq_false_scalar (a b : F × Int) :
    Part1.itemLess a b = false ↔ b.1 < a.1 ∨ (a.1 = b.1 ∧ b.2 ≤ a.2) := by
  unfold Part1.itemLess
  rcases lt_trichotomy a.1 b.1 with h | h | h
  · simp [h, not_lt_of_gt h, ne_of_lt h]
  · simp [h]
  · simp [h, not_lt_of_gt h]

theorem Part1.strictWeak_itemLess_scalar : StrictWeak (Part1.itemLess : F × Int → F × Int → Bool) := by
  refine ⟨?_, ?_, ?_⟩
  · intro a
    rw [Part1.itemLess_eq_false_scalar]
    exact Or.inr ⟨rfl, le_refl _⟩
  · intro a b c hab hbc
    rw [Part1.itemLess_eq_true_scalar] at *
    rcases hab with h1 | ⟨h1, h2⟩ <;> rcases hbc with h3 | ⟨h3, h4⟩
    · exact Or.inl (lt_trans h1 h3)
    · exact Or.inl (h3 ▸ h1)
    · exact Or.inl (h1 ▸ h3)
    · exact Or.inr ⟨h1.trans h3, lt_trans h2 h4⟩
  · intro a b c hab hbc
    rw [Part1.itemLess_eq_false_scalar] at *
    rcases hab with h1 | ⟨h1, h2⟩ <;> rcases hbc with h3 | ⟨h3, h4⟩
    · exact Or.inl (lt_trans h3 h1)
    · exact Or.inl (h3 ▸ h1)
    · exact Or.inl (h1 ▸ h3)
    · exact Or.inr ⟨h1.trans h3, le_trans h4 h2⟩

variable {E : Type}

theorem Part2.itemLessLoop_cons_true_generic (ops : Part2.Embedding_T E F) (axis d : Nat)
    (A B : E × Int) (i : Nat) (rest : List Nat) :
    Part2.itemLessLoop ops axis d A B (i :: rest) = true ↔
      ops.getCoordinate A.1 ((axis + i) % d) < ops.getCoordinate B.1 ((axis + i) % d) ∨
      (ops.getCoordinate A.1 ((axis + i) % d) = ops.getCoordinate B.1 ((axis + i) % d) ∧
        Part2.itemLessLoop ops axis d A B rest = true) := by
  simp only [Part2.itemLessLoop]
  rcases lt_trichotomy (ops.getCoordinate A.1 ((axis + i) % d))
    (ops.getCoordinate B.1 ((axis + i) % d)) with h | h | h
  · simp [h]
  · simp [h]
  · simp [h, not_lt_of_gt h, ne_of_gt h]

theorem Part2.itemLessLoop_cons_false_generic (ops : Part2.Embedding_T E F) (axis d : Nat)
    (A B : E × Int) (i : Nat) (rest : List Nat) :
    Part2.itemLessLoop ops axis d A B (i :: rest) = false ↔
      ops.getCoordinate B.1 ((axis + i) % d) < ops.getCoordinate A.1 ((axis + i) % d) ∨
      (ops.getCoordinate A.1 ((axis + i) % d) = ops.getCoordinate B.1 ((axis + i) % d) ∧
        Part2.itemLessLoop ops axis d A B rest = false) := by
  simp only [Part2.itemLessLoop]
  rcases lt_trichotomy (ops.getCoordinate A.1 ((axis + i) % d))
    (ops.getCoordinate B.1 ((axis + i) % d)) with h | h | h
  · simp [h, not_lt_of_gt h, ne_of_lt h]
  · simp [h]
  · simp [h, not_lt_of_gt h]

theorem Part2.strictWeak_itemLessLoop_generic (ops : Part2.Embedding_T E F) (axis d : Nat)
    (is : List Nat) : StrictWeak (fun A B => Part2.itemLessLoop ops axis d A B is) := by
  induction is with
  | nil => exact ⟨fun _ => rfl, fun _ _ _ h => by simp [Part2.itemLessLoop] at h, fun _ _ _ _ _ => rfl⟩
  | cons i rest ih =>
    obtain ⟨ih1, ih2, ih3⟩ := ih
    refine ⟨?_, ?_, ?_⟩
    · intro A
      show Part2.itemLessLoop ops axis d A A (i :: rest) = false
      rw [Part2.itemLessLoop_cons_false_generic]
      exact Or.inr ⟨rfl, ih1 A⟩
    · intro A B C hab hbc
      simp only [Part2.itemLessLoop_cons_true_generic] at *
      rcases hab with h1 | ⟨h1, h2⟩ <;> rcases hbc with h3 | ⟨h3, h4⟩
      · exact Or.inl (lt_trans h1 h3)
      · exact Or.inl (h3 ▸ h1)
      · exact Or.inl (h1 ▸ h3)
      · exact Or.inr ⟨h1.trans h3, ih2 A B C h2 h4⟩
    · intro A B C hab hbc
      simp only [Part2.itemLessLoop_cons_false_generic] at *
      rcases hab with h1 | ⟨h1, h2⟩ <;> rcases hbc with h3 | ⟨h3, h4⟩
      · exact Or.inl (lt_trans h3 h1)
      · exact Or.inl (h3 ▸ h1)
      · exact Or.inl (h1 ▸ h3)
      · exact Or.inr ⟨h1.trans h3, ih3 A B C h2 h4⟩

theorem Part2.strictWeak_itemLess_generic (ops : Part2.Embedding_T E F) (axis d : Nat) :
    StrictWeak (Part2.itemLess ops axis d) :=
  Part2.strictWeak_itemLessLoop_generic ops axis d (List.range d)

theorem StdSort.length_sort {α : Type} (S : StdSort α) (lt : α → α → Bool) (l : List α)
    (h : StrictWeak lt) : (S.sort lt l).length = l.length :=
  (S.perm lt l h).length_eq

/-- Induction principle for the generic builder: a property that holds of the empty tree
and is passed from the two halves of the sorted items to the node built on the median
holds of every tree the builder returns. -/
theorem Part2.buildKDAux_induction_generic (S : StdSort (E × Int)) (ops : Part2.Embedding_T E F)
    (P : List (E × Int) → Nat → Node E → Prop)
    (hnil : ∀ depth, P [] depth Node.nil)
    (hnode : ∀ (items : List (E × Int)) (depth : Nat) (sorted : List (E × Int))
      (m : E × Int) (l r : Node E), items ≠ [] → sorted.Perm items →
      sorted.Pairwise
        (fun a b => Part2.itemLess ops (Part2.splitAxis ops.Dim depth) ops.Dim b a = false) →
      sorted.get? (sorted.length / 2) = some m →
      P (sorted.take (sorted.length / 2)) (depth + 1) l →
      P (sorted.drop (sorted.length / 2 + 1)) (depth + 1) r →
      P items depth (Node.node m.1 m.2 l r)) :
    ∀ fuel items depth, items.length ≤ fuel →
      P items depth (Part2.buildKDAux S ops fuel items depth) := by
  intro fuel
  induction fuel with
  | zero =>
    intro items depth hlen
    have : items = [] := List.length_eq_zero.mp (Nat.le_zero.mp hlen)
    subst this
    exact hnil depth
  | succ fuel ih =>
    intro items depth hlen
    by_cases hne : items = []
    · subst hne
      simpa [Part2.buildKDAux] using hnil depth
    · have hsw := Part2.strictWeak_itemLess_generic ops (Part2.splitAxis ops.Dim depth) ops.Dim
      have hperm := S.perm _ items hsw
      have hsorted := S.sorted _ items hsw
      have hl := hperm.length_eq
      have hpos : 0 < items.length := List.length_pos.mpr hne
      have hmid : (S.sort (Part2.itemLess ops (Part2.splitAxis ops.Dim depth) ops.Dim)
          items).length / 2 <
          (S.sort (Part2.itemLess ops (Part2.splitAxis ops.Dim depth) ops.Dim) items).length := by
        rw [hl]; omega
      obtain ⟨m, hm⟩ : ∃ m, (S.sort (Part2.itemLess ops (Part2.splitAxis ops.Dim depth)
          ops.Dim) items).get? ((S.sort (Part2.itemLess ops (Part2.splitAxis ops.Dim depth)
          ops.Dim) items).length / 2) = some m :=
        ⟨_, List.get?_eq_get hmid⟩
      have hemp : items.isEmpty = false := by
        cases items with
        | nil => exact absurd rfl hne
        | cons _ _ => rfl
      simp only [Part2.buildKDAux, hemp, hm]
      apply hnode items depth _ m _ _ hne hperm hsorted hm
      · apply ih
        rw [List.length_take, hl]; omega
      · apply ih
        rw [List.length_drop, hl]; omega

/-- Induction principle for the scalar builder. -/
theorem Part1.buildKDAux_induction_scalar (S : StdSort (F × Int))
    (P : List (F × Int) → Nat → Node F → Prop)
    (hnil : ∀ depth, P [] depth Node.nil)
    (hnode : ∀ (items : List (F × Int)) (depth : Nat) (sorted : List (F × Int))
      (m : F × Int) (l r : Node F), items ≠ [] → sorted.Perm items →
      sorted.Pairwise (fun a b => Part1.itemLess b a = false) →
      sorted.get? ((sorted.length - 1) / 2) = some m →
      P (sorted.take ((sorted.length - 1) / 2)) (depth + 1) l →
      P (sorted.drop ((sorted.length - 1) / 2 + 1)) (depth + 1) r →
      P items depth (Node.node m.1 m.2 l r)) :
    ∀ fuel items depth, items.length ≤ fuel →
      P items depth (Part1.buildKDAux S fuel items depth) := by
  intro fuel
  induction fuel with
  | zero =>
    intro items depth hlen
    have : items = [] := List.length_eq_zero.mp (Nat.le_zero.mp hlen)
    subst this
    exact hnil depth
  | succ fuel ih =>
    intro items depth hlen
    by_cases hne : items = []
    · subst hne
      simpa [Part1.buildKDAux] using hnil depth
    · have hsw : StrictWeak (Part1.itemLess : F × Int → F × Int → Bool) :=
        Part1.strictWeak_itemLess_scalar
      have hperm := S.perm _ items hsw
      have hsorted := S.sorted _ items hsw
      have hl := hperm.length_eq
      have hpos : 0 < items.length := List.length_pos.mpr hne
      have hmid : ((S.sort Part1.itemLess items).length - 1) / 2 <
          (S.sort Part1.itemLess items).length := by
        rw [hl]; omega
      obtain ⟨m, hm⟩ : ∃ m, (S.sort Part1.itemLess items).get?
          (((S.sort Part1.itemLess items).length - 1) / 2) = some m :=
        ⟨_, List.get?_eq_get hmid⟩
      have hemp : items.isEmpty = false := by
        cases items with
        | nil => exact absurd rfl hne
        | cons _ _ => rfl
      simp only [Part1.buildKDAux, hemp, hm]
      apply hnode items depth _ m _ _ hne hperm hsorted hm
      · apply ih
        rw [List.length_take, hl]; omega
      · apply ih
        rw [List.length_drop, hl]; omega

/-- A list is a permutation of its part before position `k`, the element at `k`, and
its part after `k`. -/
theorem perm_split_at {α : Type} (l : List α) (k : Nat) (m : α) (h : l.get? k = some m) :
    (l.take k ++ m :: l.drop (k + 1)).Perm l := by
  have hk : k < l.length := by
    by_contra hc
    rw [List.get?_eq_none.mpr (not_lt.mp hc)] at h
    exact absurd h (by simp)
  have hm : l.get ⟨k, hk⟩ = m := by
    rw [List.get?_eq_get hk] at h
    exact Option.some.inj h
  have h2 : l.drop k = m :: l.drop (k + 1) := by
    rw [← hm]
    simp
  rw [← h2, List.take_append_drop]

theorem eq_split_at {α : Type} (l : List α) (k : Nat) (m : α) (h : l.get? k = some m) :
    l.take k ++ m :: l.drop (k + 1) = l := by
  have hk : k < l.length := by
    by_contra hc
    rw [List.get?_eq_none.mpr (not_lt.mp hc)] at h
    exact absurd h (by simp)
  have hm : l.get ⟨k, hk⟩ = m := by
    rw [List.get?_eq_get hk] at h
    exact Option.some.inj h
  have h2 : l.drop k = m :: l.drop (k + 1) := by
    rw [← hm]
    simp
  rw [← h2, List.take_append_drop]

theorem Node.size_eq_length_toList (t : Node E) : t.size = t.toList.length := by
  induction t with
  | nil => rfl
  | node e i l r ihl ihr => simp [Node.size, Node.toList, ihl, ihr]; omega

/-- The generic builder stores exactly the input items. -/
theorem Part2.buildKDAux_toList_perm_generic (S : StdSort (E × Int)) (ops : Part2.Embedding_T E F)
    (fuel : Nat) (items : List (E × Int)) (depth : Nat) (h : items.length ≤ fuel) :
    (Part2.buildKDAux S ops fuel items depth).toList.Perm items := by
  refine Part2.buildKDAux_induction_generic S ops (fun items _ t => t.toList.Perm items)
    (fun _ => List.Perm.refl _) ?_ fuel items depth h
  intro items depth sorted m l r _ hperm _ hm hl hr
  simp only [Node.toList]
  refine List.Perm.trans ?_ (List.Perm.trans (perm_split_at sorted _ m hm) hperm)
  exact List.Perm.append hl (List.Perm.cons _ hr)

/-- The scalar builder stores exactly the input items. -/
theorem Part1.buildKDAux_toList_perm_scalar (S : StdSort (F × Int))
    (fuel : Nat) (items : List (F × Int)) (depth : Nat) (h : items.length ≤ fuel) :
    (Part1.buildKDAux S fuel items depth).toList.Perm items := by
  refine Part1.buildKDAux_induction_scalar S (fun items _ t => t.toList.Perm items)
    (fun _ => List.Perm.refl _) ?_ fuel items depth h
  intro items depth sorted m l r _ hperm _ hm hl hr
  simp only [Node.toList]
  refine List.Perm.trans ?_ (List.Perm.trans (perm_split_at sorted _ m hm) hperm)
  exact List.Perm.append hl (List.Perm.cons _ hr)

theorem Part2.buildKDAux_size_generic (S : StdSort (E × Int)) (ops : Part2.Embedding_T E F)
    (fuel : Nat) (items : List (E × Int)) (depth : Nat) (h : items.length ≤ fuel) :
    (Part2.buildKDAux S ops fuel items depth).size = items.length := by
  rw [Node.size_eq_length_toList]
  exact (Part2.buildKDAux_toList_perm_generic S ops fuel items depth h).length_eq

theorem Part1.buildKDAux_size_scalar (S : StdSort (F × Int))
    (fuel : Nat) (items : List (F × Int)) (depth : Nat) (h : items.length ≤ fuel) :
    (Part1.buildKDAux S fuel items depth).size = items.length := by
  rw [Node.size_eq_length_toList]
  exact (Part1.buildKDAux_toList_perm_scalar S fuel items depth h).length_eq

/-- Height of a node whose children have the heights of balanced halves. -/
theorem clog_halves (n a b : Nat) (hn : 0 < n) (ha : a ≤ n / 2) (hb : b ≤ n / 2)
    (hab : a = n / 2 ∨ b = n / 2) :
    max (Nat.clog 2 (a + 1)) (Nat.clog 2 (b + 1)) + 1 = Nat.clog 2 (n + 1) := by
  have h1 : Nat.clog 2 (n + 1) = Nat.clog 2 (n / 2 + 1) + 1 := by
    rw [Nat.clog_of_two_le (by norm_num) (by omega)]
    congr 2
    omega
  have hma : Nat.clog 2 (a + 1) ≤ Nat.clog 2 (n / 2 + 1) :=
    Nat.clog_mono_right 2 (by omega)
  have hmb : Nat.clog 2 (b + 1) ≤ Nat.clog 2 (n / 2 + 1) :=
    Nat.clog_mono_right 2 (by omega)
  rw [h1]
  rcases hab with h | h
  · rw [h, max_eq_left (h ▸ hmb)]
  · rw [h, max_eq_right (h ▸ hma)]

theorem Part2.buildKDAux_height_generic (S : StdSort (E × Int)) (ops : Part2.Embedding_T E F)
    (fuel : Nat) (items : List (E × Int)) (depth : Nat) (h : items.length ≤ fuel) :
    (Part2.buildKDAux S ops fuel items depth).height = Nat.clog 2 (items.length + 1) := by
  refine Part2.buildKDAux_induction_generic S ops
    (fun items _ t => t.height = Nat.clog 2 (items.length + 1)) (fun _ => by simp [Node.height])
    ?_ fuel items depth h
  intro items depth sorted m l r hne hperm _ _ hl hr
  have hlen := hperm.length_eq
  have hpos : 0 < items.length := List.length_pos.mpr hne
  simp only [Node.height, hl, hr, List.length_take, List.length_drop]
  rw [hlen]
  apply clog_halves _ _ _ hpos
  · omega
  · omega
  · left; omega

theorem Part1.buildKDAux_height_scalar (S : StdSort (F × Int))
    (fuel : Nat) (items : List (F × Int)) (depth : Nat) (h : items.length ≤ fuel) :
    (Part1.buildKDAux S fuel items depth).height = Nat.clog 2 (items.length + 1) := by
  refine Part1.buildKDAux_induction_scalar S
    (fun items _ t => t.height = Nat.clog 2 (items.length + 1)) (fun _ => by simp [Node.height])
    ?_ fuel items depth h
  intro items depth sorted m l r hne hperm _ _ hl hr
  have hlen := hperm.length_eq
  have hpos : 0 < items.length := List.length_pos.mpr hne
  simp only [Node.height, hl, hr, List.length_take, List.length_drop]
  rw [hlen]
  apply clog_halves _ _ _ hpos
  · omega
  · omega
  · right; omega

/-- `Nat.clog 2 (N + 1)` is the least `h` with `N + 1 ≤ 2 ^ h`. -/
theorem clog_least (N : Nat) :
    N + 1 ≤ 2 ^ Nat.clog 2 (N + 1) ∧ ∀ h, N + 1 ≤ 2 ^ h → Nat.clog 2 (N + 1) ≤ h :=
  ⟨Nat.le_pow_clog (by norm_num) _, fun _ hh => (Nat.le_pow_iff_clog_le (by norm_num)).mp hh⟩

theorem Part2.buildKDAux_balanced_generic (S : StdSort (E × Int)) (ops : Part2.Embedding_T E F)
    (fuel : Nat) (items : List (E × Int)) (depth : Nat) (h : items.length ≤ fuel) :
    (Part2.buildKDAux S ops fuel items depth).BalancedSplit := by
  have key := Part2.buildKDAux_induction_generic S ops
    (fun items _ t => t.size = items.length ∧ t.BalancedSplit)
    (fun _ => ⟨rfl, trivial⟩) ?_ fuel items depth h
  · exact key.2
  intro items depth sorted m l r hne hperm _ _ hl hr
  have hlen := hperm.length_eq
  have hpos : 0 < items.length := List.length_pos.mpr hne
  have h1 := hl.1
  have h2 := hr.1
  rw [List.length_take] at h1
  rw [List.length_drop] at h2
  refine ⟨by simp only [Node.size]; omega, ?_⟩
  simp only [Node.BalancedSplit, Node.size]
  refine ⟨?_, by omega, by omega, by omega, hl.2, hr.2⟩
  right
  omega

theorem Part1.buildKDAux_balanced_scalar (S : StdSort (F × Int))
    (fuel : Nat) (items : List (F × Int)) (depth : Nat) (h : items.length ≤ fuel) :
    (Part1.buildKDAux S fuel items depth).BalancedSplit := by
  have key := Part1.buildKDAux_induction_scalar S
    (fun items _ t => t.size = items.length ∧ t.BalancedSplit)
    (fun _ => ⟨rfl, trivial⟩) ?_ fuel items depth h
  · exact key.2
  intro items depth sorted m l r hne hperm _ _ hl hr
  have hlen := hperm.length_eq
  have hpos : 0 < items.length := List.length_pos.mpr hne
  have h1 := hl.1
  have h2 := hr.1
  rw [List.length_take] at h1
  rw [List.length_drop] at h2
  refine ⟨by simp only [Node.size]; omega, ?_⟩
  simp only [Node.BalancedSplit, Node.size]
  refine ⟨?_, by omega, by omega, by omega, hl.2, hr.2⟩
  left
  omega

/-- The recursion budget does not matter once it covers the number of items. -/
theorem Part1.buildKDAux_fuel_scalar (S : StdSort (F × Int)) :
    ∀ (fuel1 fuel2 : Nat) (items : List (F × Int)) (depth : Nat),
      items.length ≤ fuel1 → items.length ≤ fuel2 →
      Part1.buildKDAux S fuel1 items depth = Part1.buildKDAux S fuel2 items depth := by
  intro fuel1
  induction fuel1 with
  | zero =>
    intro fuel2 items depth h1 _
    have : items = [] := List.length_eq_zero.mp (Nat.le_zero.mp h1)
    subst this
    cases fuel2 <;> simp [Part1.buildKDAux]
  | succ fuel1 ih =>
    intro fuel2 items depth h1 h2
    cases fuel2 with
    | zero =>
      have : items = [] := List.length_eq_zero.mp (Nat.le_zero.mp h2)
      subst this
      simp [Part1.buildKDAux]
    | succ fuel2 =>
      have hl := (S.perm Part1.itemLess items Part1.strictWeak_itemLess_scalar).length_eq
      simp only [Part1.buildKDAux]
      split
      · rfl
      · split
        · rfl
        · rw [ih fuel2 _ _ (by rw [List.length_take, hl]; omega)
            (by rw [List.length_take, hl]; omega),
            ih fuel2 (List.drop _ _) _ (by rw [List.length_drop, hl]; omega)
            (by rw [List.length_drop, hl]; omega)]

/-- The recursion budget does not matter once it covers the number of items. -/
theorem Part2.buildKDAux_fuel_generic (S : StdSort (E × Int)) (ops : Part2.Embedding_T E F) :
    ∀ (fuel1 fuel2 : Nat) (items : List (E × Int)) (depth : Nat),
      items.length ≤ fuel1 → items.length ≤ fuel2 →
      Part2.buildKDAux S ops fuel1 items depth = Part2.buildKDAux S ops fuel2 items depth := by
  intro fuel1
  induction fuel1 with
  | zero =>
    intro fuel2 items depth h1 _
    have : items = [] := List.length_eq_zero.mp (Nat.le_zero.mp h1)
    subst this
    cases fuel2 <;> simp [Part2.buildKDAux]
  | succ fuel1 ih =>
    intro fuel2 items depth h1 h2
    cases fuel2 with
    | zero =>
      have : items = [] := List.length_eq_zero.mp (Nat.le_zero.mp h2)
      subst this
      simp [Part2.buildKDAux]
    | succ fuel2 =>
      have hl := (S.perm _ items
        (Part2.strictWeak_itemLess_generic ops (Part2.splitAxis ops.Dim depth) ops.Dim)).length_eq
      simp only [Part2.buildKDAux]
      split
      · rfl
      · split
        · rfl
        · rw [ih fuel2 _ _ (by rw [List.length_take, hl]; omega)
            (by rw [List.length_take, hl]; omega),
            ih fuel2 (List.drop _ _) _ (by rw [List.length_drop, hl]; omega)
            (by rw [List.length_drop, hl]; omega)]

/-- One step of the scalar builder on a non-empty list. -/
theorem Part1.buildKD_cons_scalar (S : StdSort (F × Int)) (items : List (F × Int)) (depth : Nat)
    (hne : items ≠ []) :
    ∃ m, (S.sort Part1.itemLess items).get? ((items.length - 1) / 2) = some m ∧
      Part1.buildKD S items depth = Node.node m.1 m.2
        (Part1.buildKD S ((S.sort Part1.itemLess items).take ((items.length - 1) / 2))
          (depth + 1))
        (Part1.buildKD S ((S.sort Part1.itemLess items).drop ((items.length - 1) / 2 + 1))
          (depth + 1)) := by
  have hl := (S.perm Part1.itemLess items Part1.strictWeak_itemLess_scalar).length_eq
  have hpos : 0 < items.length := List.length_pos.mpr hne
  have hmid : (items.length - 1) / 2 < (S.sort Part1.itemLess items).length := by
    rw [hl]; omega
  have hget : (S.sort Part1.itemLess items).get? ((items.length - 1) / 2) =
      some ((S.sort Part1.itemLess items).get ⟨_, hmid⟩) := List.get?_eq_get hmid
  refine ⟨_, hget, ?_⟩
  have hemp : items.isEmpty = false := by
    cases items with
    | nil => exact absurd rfl hne
    | cons _ _ => rfl
  have hstep : Part1.buildKD S items depth =
      Part1.buildKDAux S (items.length - 1 + 1) items depth :=
    Part1.buildKDAux_fuel_scalar S _ _ items depth (le_refl _) (by omega)
  rw [hstep]
  simp only [Part1.buildKDAux, hemp, hl, hget]
  simp only [Bool.false_eq_true, if_false, Node.node.injEq, true_and]
  constructor
  · apply Part1.buildKDAux_fuel_scalar
    · rw [List.length_take, hl]; omega
    · exact le_refl _
  · apply Part1.buildKDAux_fuel_scalar
    · rw [List.length_drop, hl]; omega
    · exact le_refl _

/-! ## Claims on the shape of the built tree -/

/-- C4: for every input list of `N` items the tree returned by `buildKD(items, 0)` has
height `ceil(log2(N + 1))`, the least `h` with `N + 1 ≤ 2 ^ h`; this holds for the generic
builder (median index `n / 2`) and for the scalar builder (median index `(n - 1) / 2`),
whatever conforming `std::sort` is used. -/
theorem C4_height_ceil_log2 (S2 : StdSort (E × Int)) (ops : Part2.Embedding_T E F)
    (items2 : List (E × Int)) (S1 : StdSort (F × Int)) (items1 : List (F × Int)) :
    ((Part2.buildKD S2 ops items2 0).height = Nat.clog 2 (items2.length + 1) ∧
      items2.length + 1 ≤ 2 ^ (Part2.buildKD S2 ops items2 0).height ∧
      ∀ h, items2.length + 1 ≤ 2 ^ h → (Part2.buildKD S2 ops items2 0).height ≤ h) ∧
    ((Part1.buildKD S1 items1 0).height = Nat.clog 2 (items1.length + 1) ∧
      items1.length + 1 ≤ 2 ^ (Part1.buildKD S1 items1 0).height ∧
      ∀ h, items1.length + 1 ≤ 2 ^ h → (Part1.buildKD S1 items1 0).height ≤ h) := by
  have h2 : (Part2.buildKD S2 ops items2 0).height = Nat.clog 2 (items2.length + 1) :=
    Part2.buildKDAux_height_generic S2 ops _ items2 0 (le_refl _)
  have h1 : (Part1.buildKD S1 items1 0).height = Nat.clog 2 (items1.length + 1) :=
    Part1.buildKDAux_height_scalar S1 _ items1 0 (le_refl _)
  refine ⟨⟨h2, ?_⟩, ⟨h1, ?_⟩⟩
  · rw [h2]; exact clog_least _
  · rw [h1]; exact clog_least _

/-- C6: in the tree returned by `buildKD` for any input and any starting depth (generic and
scalar builder), every node whose subtree has `n` nodes has child subtrees of sizes
`floor((n-1)/2)` and `ceil((n-1)/2)` in some order, which sum to `n - 1` and differ by at
most 1. -/
theorem C6_balanced_split_sizes (S2 : StdSort (E × Int)) (ops : Part2.Embedding_T E F)
    (items2 : List (E × Int)) (depth2 : Nat) (S1 : StdSort (F × Int))
    (items1 : List (F × Int)) (depth1 : Nat) :
    (Part2.buildKD S2 ops items2 depth2).BalancedSplit ∧
    (Part1.buildKD S1 items1 depth1).BalancedSplit :=
  ⟨Part2.buildKDAux_balanced_generic S2 ops _ items2 depth2 (le_refl _),
    Part1.buildKDAux_balanced_scalar S1 _ items1 depth1 (le_refl _)⟩

/-- C7, as stated, fails: on the two items `(10, 0)` and `(20, 1)` the scalar builder does not
put the element at position `floor(2/2) = 1` of the ordered items in the root. -/
theorem C7_upper_median_fails :
    ¬ Part1.MedianSplit (fun n => n / 2) (insertionStdSort (ℚ × Int))
      [(10, 0), (20, 1)] 0 := by
  intro h
  have h1 := h.1
  revert h1
  decide!

/-- C7, amended: for every non-empty list of `n` items the node created by the scalar
`buildKD` holds the element at 0-indexed position `floor((n-1)/2)` of the ordered items (the
lower median for even `n`); its left subtree is built from the `floor((n-1)/2)` elements
before it and its right subtree from the remaining `n - 1 - floor((n-1)/2)`. -/
theorem C7_lower_median (S : StdSort (F × Int)) (items : List (F × Int)) (depth : Nat)
    (hne : items ≠ []) :
    Part1.MedianSplit (fun n => (n - 1) / 2) S items depth := by
  obtain ⟨m, hm, hb⟩ := Part1.buildKD_cons_scalar S items depth hne
  have hl := (S.perm Part1.itemLess items Part1.strictWeak_itemLess_scalar).length_eq
  have hpos : 0 < items.length := List.length_pos.mpr hne
  simp only [Part1.MedianSplit]
  rw [hb]
  simp only [Node.rootItem, Node.leftChild, Node.rightChild]
  refine ⟨hm.symm, trivial, trivial, ?_, ?_⟩
  · rw [show Part1.buildKD S (List.take ((items.length - 1) / 2) (S.sort Part1.itemLess items))
        (depth + 1) = Part1.buildKDAux S _ _ (depth + 1) from rfl,
      Part1.buildKDAux_size_scalar S _ _ _ (le_refl _), List.length_take, hl]
    omega
  · rw [show Part1.buildKD S (List.drop ((items.length - 1) / 2 + 1)
        (S.sort Part1.itemLess items)) (depth + 1) = Part1.buildKDAux S _ _ (depth + 1) from rfl,
      Part1.buildKDAux_size_scalar S _ _ _ (le_refl _), List.length_drop, hl]
    omega

/-- C7, amended, at the items `(10, 0)` and `(20, 1)`: the root holds `(10, 0)`. -/
theorem C7_lower_median_witness :
    ([((10 : ℚ), (0 : Int)), (20, 1)] ≠ []) ∧
    Part1.MedianSplit (fun n => (n - 1) / 2) (insertionStdSort (ℚ × Int))
      [(10, 0), (20, 1)] 0 ∧
    Part1.buildKD (insertionStdSort (ℚ × Int)) [(10, 0), (20, 1)] 0 =
      Node.node 10 0 Node.nil (Node.node 20 1 Node.nil Node.nil) :=
  ⟨by decide, C7_lower_median _ _ 0 (by decide), by decide⟩

/-- C8 at the failing input: with `D = 2` and split axis 0, the comparator of the generic
builder orders neither of the items `((0,0), idx 1)` and `((0,0), idx 2)` before the
other, so the idx is not used to break the tie. -/
theorem C8_no_idx_tie_break :
    Part2.itemLess (Part2.vectorEmbedding (fun x : ℚ => x) 2) 0 2 ([0, 0], 1) ([0, 0], 2)
      = false ∧
    Part2.itemLess (Part2.vectorEmbedding (fun x : ℚ => x) 2) 0 2 ([0, 0], 2) ([0, 0], 1)
      = false ∧
    (([0, 0], 1) : List ℚ × Int) ≠ ([0, 0], 2) := by
  decide

/-- C10 at the failing input: with `K = 1`, an accumulator holding `(2, 1)` and a gap of 2
the far-side test of `knnSearch` answers no, while the relaxed test with `epsilon = 1`,
`gap / (1 + epsilon) < worst`, holds; the test of the code has no `epsilon`. -/
theorem C10_far_test_ignores_epsilon :
    exploreFar 1 [((2 : ℚ), (1 : Int))] 2 = some false ∧
    decide ((2 : ℚ) / (1 + 1) < 2) = true ∧
    Part2.knnSearch Part2.scalarEmbedding (6 : ℚ)
      (Node.node 4 1 (Node.node 0 0 Node.nil Node.nil) Node.nil) 0 1 [] = some [(2, 1)] := by
  decide!

/-- When the comparator does not order `B` before `A`, the coordinate of `A` on the split
axis is at most that of `B`. -/
theorem Part2.coord_le_of_not_less_generic (ops : Part2.Embedding_T E F) (axis d : Nat)
    (hd : 1 ≤ d) (hax : axis < d) (A B : E × Int)
    (h : Part2.itemLess ops axis d B A = false) :
    ops.getCoordinate A.1 axis ≤ ops.getCoordinate B.1 axis := by
  obtain ⟨d1, rfl⟩ : ∃ d1, d = d1 + 1 := ⟨d - 1, by omega⟩
  unfold Part2.itemLess at h
  rw [List.range_succ_eq_map, Part2.itemLessLoop_cons_false_generic] at h
  rw [Nat.add_zero, Nat.mod_eq_of_lt hax] at h
  rcases h with h | ⟨h, _⟩
  · exact le_of_lt h
  · exact le_of_eq h.symm

/-- In an ordered list split at position `k`, the elements before `k` are related to the
element at `k`, and the element at `k` to the elements after it. -/
theorem pairwise_split_at {α : Type} (R : α → α → Prop) (l : List α) (k : Nat) (m : α)
    (hm : l.get? k = some m) (hp : l.Pairwise R) :
    (∀ a ∈ l.take k, R a m) ∧ (∀ b ∈ l.drop (k + 1), R m b) := by
  rw [← eq_split_at l k m hm, List.pairwise_append] at hp
  obtain ⟨_, h2, h3⟩ := hp
  exact ⟨fun a ha => h3 a ha m (List.mem_cons_self _ _), (List.pairwise_cons.mp h2).1⟩

/-- The generic builder returns a tree that satisfies the partition invariant. -/
theorem Part2.buildKDAux_partitioned_generic (S : StdSort (E × Int))
    (ops : Part2.Embedding_T E F) (hD : 1 ≤ ops.Dim)
    (fuel : Nat) (items : List (E × Int)) (depth : Nat) (h : items.length ≤ fuel) :
    Node.Partitioned ops.getCoordinate ops.Dim (Part2.buildKDAux S ops fuel items depth) depth := by
  have key := Part2.buildKDAux_induction_generic S ops
    (fun items depth t => t.toList.Perm items ∧ Node.Partitioned ops.getCoordinate ops.Dim t depth)
    (fun _ => ⟨List.Perm.refl _, trivial⟩) ?_ fuel items depth h
  · exact key.2
  intro items depth sorted m l r _ hperm hsorted hm hl hr
  refine ⟨?_, ?_⟩
  · simp only [Node.toList]
    refine List.Perm.trans ?_ (List.Perm.trans (perm_split_at sorted _ m hm) hperm)
    exact List.Perm.append hl.1 (List.Perm.cons _ hr.1)
  · have hax : Part2.splitAxis ops.Dim depth = depth % ops.Dim := by
      unfold Part2.splitAxis
      rw [if_neg (by omega)]
    rw [hax] at hsorted
    have hlt : depth % ops.Dim < ops.Dim := Nat.mod_lt _ (by omega)
    obtain ⟨hbefore, hafter⟩ := pairwise_split_at _ sorted _ m hm hsorted
    refine ⟨?_, ?_, hl.2, hr.2⟩
    · intro x hx
      exact Part2.coord_le_of_not_less_generic ops _ _ hD hlt x m
        (hbefore x (hl.1.subset hx))
    · intro x hx
      exact Part2.coord_le_of_not_less_generic ops _ _ hD hlt m x
        (hafter x (hr.1.subset hx))

/-- C5: for every `D ≥ 1` and every list of items whose embeddings have length `D`, the tree
returned by the generic `buildKD(items, 0)` satisfies the partition invariant: at every node
at depth `t`, with `a = t mod D`, every node of its left subtree has coordinate `a` at most
the node's and every node of its right subtree has coordinate `a` at least the node's. -/
theorem C5_partition_invariant (S : StdSort (List F × Int)) (sqrt : F → F) (D : Nat)
    (items : List (List F × Int)) (hD : 1 ≤ D) (_hlen : ∀ it ∈ items, it.1.length = D) :
    Node.Partitioned (Part2.vectorEmbedding sqrt D).getCoordinate D
      (Part2.buildKD S (Part2.vectorEmbedding sqrt D) items 0) 0 :=
  Part2.buildKDAux_partitioned_generic S (Part2.vectorEmbedding sqrt D) hD _ items 0
    (le_refl _)

/-- C5 at `D = 2` on the points `(0,0)`, `(1,1)`, `(5,5)`, `(3,0)`. -/
theorem C5_partition_invariant_witness :
    (1 ≤ 2 ∧ ∀ it ∈ ([([0, 0], 0), ([1, 1], 1), ([5, 5], 2), ([3, 0], 3)] :
      List (List ℚ × Int)), it.1.length = 2) ∧
    Node.Partitioned (Part2.vectorEmbedding (fun x : ℚ => x) 2).getCoordinate 2
      (Part2.buildKD (insertionStdSort _) (Part2.vectorEmbedding (fun x : ℚ => x) 2)
        [([0, 0], 0), ([1, 1], 1), ([5, 5], 2), ([3, 0], 3)] 0) 0 ∧
    Part2.buildKD (insertionStdSort _) (Part2.vectorEmbedding (fun x : ℚ => x) 2)
        [([0, 0], 0), ([1, 1], 1), ([5, 5], 2), ([3, 0], 3)] 0 =
      Node.node [3, 0] 3
        (Node.node [1, 1] 1 (Node.node [0, 0] 0 Node.nil Node.nil) Node.nil)
        (Node.node [5, 5] 2 Node.nil Node.nil) :=
  ⟨⟨by decide, by decide⟩,
    C5_partition_invariant _ _ 2 _ (by decide) (by decide), by decide⟩

/-- Two items neither of which the scalar comparator orders before the other are equal. -/
theorem Part1.itemLess_antisymm_scalar (a b : F × Int)
    (hab : Part1.itemLess b a = false) (hba : Part1.itemLess a b = false) : a = b := by
  rw [Part1.itemLess_eq_false_scalar] at hab hba
  rcases hab with h1 | ⟨h1, h2⟩ <;> rcases hba with h3 | ⟨h3, h4⟩
  · exact absurd h1 (not_lt_of_gt h3)
  · exact absurd h1 (by rw [h3]; exact lt_irrefl _)
  · exact absurd h3 (by rw [h1]; exact lt_irrefl _)
  · exact Prod.ext h3 (le_antisymm h2 h4)

/-- Under the scalar comparator the ordered arrangement of a list is unique: conforming
sorts agree on lists that are permutations of each other. -/
theorem Part1.sort_unique_scalar (S S' : StdSort (F × Int)) (items items' : List (F × Int))
    (h : items.Perm items') :
    S.sort Part1.itemLess items = S'.sort Part1.itemLess items' := by
  have hsw : StrictWeak (Part1.itemLess : F × Int → F × Int → Bool) :=
    Part1.strictWeak_itemLess_scalar
  have hanti : IsAntisymm (F × Int) (fun a b => Part1.itemLess b a = false) :=
    ⟨fun a b hab hba => Part1.itemLess_antisymm_scalar a b hab hba⟩
  have hp : (S.sort Part1.itemLess items).Perm (S'.sort Part1.itemLess items') :=
    ((S.perm _ items hsw).trans h).trans (S'.perm _ items' hsw).symm
  exact List.eq_of_perm_of_sorted hp (S.sorted _ items hsw) (S'.sorted _ items' hsw)

/-- The scalar builder returns the same tree for permuted inputs, for every budget. -/
theorem Part1.buildKDAux_perm_scalar (S S' : StdSort (F × Int)) :
    ∀ (fuel : Nat) (items items' : List (F × Int)) (depth depth' : Nat),
      items.Perm items' →
      Part1.buildKDAux S fuel items depth = Part1.buildKDAux S' fuel items' depth' := by
  intro fuel
  induction fuel with
  | zero => intro _ _ _ _ _; rfl
  | succ fuel ih =>
    intro items items' depth depth' h
    have hs := Part1.sort_unique_scalar S S' items items' h
    have hemp : items.isEmpty = items'.isEmpty := by
      cases items with
      | nil => rw [List.Perm.nil_eq h]
      | cons a l =>
        cases items' with
        | nil => exact absurd h.symm (List.not_perm_nil_cons _ _)
        | cons _ _ => rfl
    simp only [Part1.buildKDAux, hs, hemp]
    split
    · rfl
    · split
      · rfl
      · rw [ih _ _ (depth + 1) (depth' + 1) (List.Perm.refl _),
          ih (List.drop _ _) _ (depth + 1) (depth' + 1) (List.Perm.refl _)]

/-- C9: for every list of (scalar, idx) items and every permutation of it, the scalar
`buildKD` returns the same tree (same embedding and idx at every position), also when
several items share an embedding, whatever conforming `std::sort` is used and at whatever
depth the builder is started; in particular building twice from the same input, even with
two different conforming sorts, gives the same tree. -/
theorem C9_reproducible_tree (S S' : StdSort (F × Int)) (items items' : List (F × Int))
    (depth depth' : Nat) (h : items.Perm items') :
    Part1.buildKD S items depth = Part1.buildKD S' items' depth' ∧
    Part1.buildKD S items depth = Part1.buildKD S' items depth := by
  refine ⟨?_, Part1.buildKDAux_perm_scalar S S' _ items items depth depth (List.Perm.refl _)⟩
  unfold Part1.buildKD
  rw [h.length_eq]
  exact Part1.buildKDAux_perm_scalar S S' _ items items' depth depth' h

/-- C9 on five items, two of which share the embedding 20, given in two different orders. -/
theorem C9_reproducible_tree_witness :
    ([(30, 2), (20, 5), (10, 0), (20, 1), (40, 3)] : List (ℚ × Int)).Perm
      [(10, 0), (20, 1), (30, 2), (40, 3), (20, 5)] ∧
    (Part1.buildKD (insertionStdSort _)
        ([(30, 2), (20, 5), (10, 0), (20, 1), (40, 3)] : List (ℚ × Int)) 0 =
      Part1.buildKD (insertionStdSort _) [(10, 0), (20, 1), (30, 2), (40, 3), (20, 5)] 0 ∧
     Part1.buildKD (insertionStdSort _)
        ([(30, 2), (20, 5), (10, 0), (20, 1), (40, 3)] : List (ℚ × Int)) 0 =
      Part1.buildKD (insertionStdSort _)
        ([(30, 2), (20, 5), (10, 0), (20, 1), (40, 3)] : List (ℚ × Int)) 0) ∧
    Part1.buildKD (insertionStdSort _)
        ([(30, 2), (20, 5), (10, 0), (20, 1), (40, 3)] : List (ℚ × Int)) 0 =
      Node.node 20 5 (Node.node 10 0 Node.nil (Node.node 20 1 Node.nil Node.nil))
        (Node.node 30 2 Node.nil (Node.node 40 3 Node.nil Node.nil)) :=
  ⟨by decide, C9_reproducible_tree _ _ _ _ 0 0 (by decide), by decide⟩

/-! ## The accumulator -/

theorem pqLess_true_le (a b : PQItem F) (h : pqLess a b = true) : a.1 ≤ b.1 := by
  unfold pqLess at h
  simp only [Bool.or_eq_true, Bool.and_eq_true, decide_eq_true_eq, Bool.not_eq_true',
    decide_eq_false_iff_not] at h
  rcases h with h | ⟨h, _⟩
  · exact le_of_lt h
  · exact not_lt.mp h

theorem pqLess_false_le (a b : PQItem F) (h : pqLess a b = false) : b.1 ≤ a.1 := by
  unfold pqLess at h
  simp only [Bool.or_eq_false_iff, decide_eq_false_iff_not] at h
  exact not_lt.mp h.1

/-- The running maximum of `top` is one of the pairs and no pair has a greater distance. -/
theorem foldl_max_spec (xs : List (PQItem F)) (x : PQItem F) :
    xs.foldl (fun m y => if pqLess m y then y else m) x ∈ x :: xs ∧
    ∀ y ∈ x :: xs, y.1 ≤ (xs.foldl (fun m y => if pqLess m y then y else m) x).1 := by
  induction xs generalizing x with
  | nil => simp
  | cons z zs ih =>
    simp only [List.foldl_cons]
    obtain ⟨h1, h2⟩ := ih (if pqLess x z then z else x)
    constructor
    · rcases List.mem_cons.mp h1 with h | h
      · rw [h]
        split
        · exact List.mem_cons_of_mem _ (List.mem_cons_self _ _)
        · exact List.mem_cons_self _ _
      · exact List.mem_cons_of_mem _ (List.mem_cons_of_mem _ h)
    · intro y hy
      have hstep := h2 _ (List.mem_cons_self _ _)
      rcases List.mem_cons.mp hy with h | h
      · subst h
        refine le_trans ?_ hstep
        split
        · next hc => exact pqLess_true_le _ _ hc
        · exact le_refl _
      · rcases List.mem_cons.mp h with h | h
        · subst h
          refine le_trans ?_ hstep
          split
          · exact le_refl _
          · next hc => exact pqLess_false_le _ _ (by simpa using hc)
        · exact h2 y (List.mem_cons_of_mem _ h)

/-- On a non-empty accumulator `top` returns a held pair of greatest distance. -/
theorem MaxHeap.top_spec (h : MaxHeap F) (hne : h ≠ []) :
    ∃ t, MaxHeap.top h = some t ∧ t ∈ h ∧ ∀ y ∈ h, y.1 ≤ t.1 := by
  cases h with
  | nil => exact absurd rfl hne
  | cons x xs => exact ⟨_, rfl, (foldl_max_spec xs x).1, (foldl_max_spec xs x).2⟩

theorem cons_erase_perm {α : Type} [BEq α] [LawfulBEq α] {a : α} {l : List α} (h : a ∈ l) :
    (a :: l.erase a).Perm l := by
  obtain ⟨l1, l2, _, e1, e2⟩ := List.exists_erase_eq h
  rw [e2]
  conv_rhs => rw [e1]
  exact List.perm_middle.symm

theorem KBest.of_perm {K : Int} {h : MaxHeap F} {A B : List (PQItem F)}
    (hk : KBest K h A) (hp : A.Perm B) : KBest K h B := by
  obtain ⟨R, h1, h2, h3, h4⟩ := hk
  exact ⟨R, h1.trans hp, h2, h3, h4⟩

theorem KBest.nil (K : Int) (hK : 0 ≤ K) : KBest K ([] : MaxHeap F) [] :=
  ⟨[], List.Perm.refl _, by simpa using hK, fun _ => rfl, fun _ hx => by simp at hx⟩

/-- The node-update step keeps `K` nearest of the candidates seen so far. -/
theorem heapUpdate_kbest (K : Int) (hK : 1 ≤ K) (h : MaxHeap F) (A : List (PQItem F))
    (d : F) (idx : Int) (hk : KBest K h A) :
    ∃ h2, heapUpdate K h d idx = some h2 ∧ KBest K h2 ((d, idx) :: A) := by
  obtain ⟨R, hperm, hle, hfew, hord⟩ := hk
  unfold heapUpdate
  by_cases hlt : (h.length : Int) < K
  · rw [if_pos hlt]
    refine ⟨_, rfl, [], ?_, ?_, fun _ => rfl, fun _ _ _ hy => by simp at hy⟩
    · have hR := hfew hlt
      subst hR
      simpa [MaxHeap.push] using hperm
    · simp only [MaxHeap.push, List.length_cons]
      push_cast
      omega
  · rw [if_neg hlt]
    have hne : h ≠ [] := by
      intro hc
      subst hc
      simp at hlt
      omega
    obtain ⟨t, ht, hmem, hmax⟩ := MaxHeap.top_spec h hne
    rw [ht]
    simp only
    by_cases hd : d < t.1
    · rw [if_pos hd]
      refine ⟨_, rfl, t :: R, ?_, ?_, ?_, ?_⟩
      · simp only [MaxHeap.push, MaxHeap.pop, ht, List.cons_append]
        refine List.Perm.cons _ ?_
        refine List.Perm.trans ?_ hperm
        refine List.Perm.trans List.perm_middle ?_
        rw [← List.cons_append]
        have hpe : (t :: MaxHeap.pop h).Perm h := by
          simp only [MaxHeap.pop, ht]
          exact cons_erase_perm hmem
        simp only [MaxHeap.pop, ht] at hpe
        exact List.Perm.append_right _ hpe
      · simp only [MaxHeap.push, MaxHeap.pop, ht, List.length_cons,
          List.length_erase_of_mem hmem]
        have : 0 < h.length := List.length_pos.mpr hne
        push_cast
        omega
      · intro hc
        simp only [MaxHeap.push, MaxHeap.pop, ht, List.length_cons,
          List.length_erase_of_mem hmem] at hc
        have : 0 < h.length := List.length_pos.mpr hne
        push_cast at hc
        omega
      · intro x hx y hy
        simp only [MaxHeap.push, MaxHeap.pop, ht] at hx
        have hty : t.1 ≤ y.1 ∨ y = t := by
          rcases List.mem_cons.mp hy with h | h
          · exact Or.inr h
          · exact Or.inl (hord t hmem y h)
        rcases List.mem_cons.mp hx with hx | hx
        · subst hx
          rcases hty with h | h
          · exact le_of_lt (lt_of_lt_of_le hd h)
          · rw [h]; exact le_of_lt hd
        · have hxh : x ∈ h := List.mem_of_mem_erase hx
          rcases hty with h1 | h1
          · exact le_trans (hmax x hxh) h1
          · rw [h1]; exact hmax x hxh
    · rw [if_neg hd]
      refine ⟨_, rfl, (d, idx) :: R, ?_, hle, fun hc => absurd hc hlt, ?_⟩
      · exact List.Perm.trans List.perm_middle (List.Perm.cons _ hperm)
      · intro x hx y hy
        rcases List.mem_cons.mp hy with h | h
        · subst h
          exact le_trans (hmax x hx) (not_lt.mp hd)
        · exact hord x hx y h

/-- The far-side step: when every candidate of the far subtree is at distance at least
`gap`, searching it or skipping it as the test says keeps `K` nearest of all candidates. -/
theorem exploreFar_kbest (K : Int) (hK : 1 ≤ K) (h : MaxHeap F) (A T : List (PQItem F))
    (gap : F) (search : MaxHeap F → Option (MaxHeap F)) (hk : KBest K h A)
    (hgap : ∀ y ∈ T, gap ≤ y.1)
    (hsearch : ∀ h0, KBest K h0 A → ∃ h1, search h0 = some h1 ∧ KBest K h1 (T ++ A)) :
    ∃ h3, ((exploreFar K h gap).bind fun go => if go then search h else some h) = some h3 ∧
      KBest K h3 (T ++ A) := by
  unfold exploreFar
  by_cases hlt : (h.length : Int) < K
  · rw [if_pos hlt]
    simpa using hsearch h hk
  · rw [if_neg hlt]
    have hne : h ≠ [] := by
      intro hc
      subst hc
      simp at hlt
      omega
    obtain ⟨t, ht, hmem, hmax⟩ := MaxHeap.top_spec h hne
    rw [ht]
    by_cases hd : gap < t.1
    · simpa [hd] using hsearch h hk
    · simp only [Option.some_bind, decide_eq_true_eq, hd, if_false]
      refine ⟨h, rfl, ?_⟩
      obtain ⟨R, hperm, hle, _, hord⟩ := hk
      refine ⟨T ++ R, ?_, hle, fun hc => absurd hc hlt, ?_⟩
      · refine List.Perm.trans ?_ (List.Perm.append_left T hperm)
        rw [← List.append_assoc, ← List.append_assoc]
        exact List.Perm.append_right R List.perm_append_comm
      · intro x hx y hy
        rcases List.mem_append.mp hy with h1 | h1
        · exact le_trans (le_trans (hmax x hx) (not_lt.mp hd)) (hgap y h1)
        · exact hord x hx y h1

/-! ## Search: the accumulator ends with `K` nearest of the tree -/

theorem candidates_node {G : Type} (dist : E → E → G) (q : E) (e : E) (i : Int)
    (l r : Node E) (A : List (PQItem G)) :
    (candidates dist q r.toList ++ (candidates dist q l.toList ++ (dist q e, i) :: A)).Perm
      (candidates dist q (Node.node e i l r).toList ++ A) := by
  simp only [candidates, Node.toList, List.map_append, List.map_cons, List.append_assoc,
    List.cons_append]
  rw [← List.append_assoc]
  refine List.Perm.trans (List.Perm.append_right _ List.perm_append_comm) ?_
  rw [List.append_assoc]
  exact List.Perm.append_left _ List.perm_middle

/-- The far child chosen by the pointer test is the child that was not chosen as near:
when the right child is near, the test `nearC == node->left` holds only if both children
are null, and then either child is the empty tree. -/
theorem Part2.far_child_generic (ops : Part2.Embedding_T E F) (q : E) (l r : Node E)
    (depth : Nat) (K : Int) (h : MaxHeap F) :
    (if (false || (l.isNull && r.isNull)) = true then Part2.knnSearch ops q r depth K h
      else Part2.knnSearch ops q l depth K h) = Part2.knnSearch ops q l depth K h := by
  cases l <;> cases r <;> simp [Node.isNull, Part2.knnSearch]

theorem Part2.knnSearch_kbest_generic (ops : Part2.Embedding_T E F) (q : E) (K : Int)
    (hK : 1 ≤ K) (hD : 1 ≤ ops.Dim)
    (hgap : ∀ p a, a < ops.Dim →
      abs (ops.getCoordinate q a - ops.getCoordinate p a) ≤ ops.distance q p) :
    ∀ (t : Node E) (depth : Nat) (h : MaxHeap F) (A : List (PQItem F)),
      Node.Partitioned ops.getCoordinate ops.Dim t depth → KBest K h A →
      ∃ h3, Part2.knnSearch ops q t depth K h = some h3 ∧
        KBest K h3 (candidates ops.distance q t.toList ++ A) := by
  intro t
  induction t with
  | nil =>
    intro depth h A _ hk
    exact ⟨h, rfl, by simpa [candidates, Node.toList] using hk⟩
  | node e i l r ihl ihr =>
    intro depth h A hpart hk
    obtain ⟨hleft, hright, hpl, hpr⟩ := hpart
    have hax : Part2.splitAxis ops.Dim depth = depth % ops.Dim := by
      unfold Part2.splitAxis
      rw [if_neg (by omega)]
    have hlt : depth % ops.Dim < ops.Dim := Nat.mod_lt _ (by omega)
    obtain ⟨h1, hu, hk1⟩ := heapUpdate_kbest K hK h A (ops.distance q e) i hk
    simp only [Part2.knnSearch, hax, hu, Option.some_bind]
    by_cases hc : ops.getCoordinate q (depth % ops.Dim) < ops.getCoordinate e (depth % ops.Dim)
    · obtain ⟨h2, hn, hk2⟩ := ihl (depth + 1) h1 _ hpl hk1
      simp only [hc, decide_True, if_true, hn, Option.some_bind, Bool.true_or]
      obtain ⟨h3, hf, hk3⟩ := exploreFar_kbest K hK h2 _
        (candidates ops.distance q r.toList)
        (abs (ops.getCoordinate q (depth % ops.Dim) - ops.getCoordinate e (depth % ops.Dim)))
        (Part2.knnSearch ops q r (depth + 1) K) hk2
        (by
          intro y hy
          obtain ⟨x, hx, rfl⟩ := List.mem_map.mp hy
          refine le_trans ?_ (hgap x.1 _ hlt)
          have h1 := hright x hx
          rw [abs_of_neg (by linarith), abs_of_neg (by linarith)]
          linarith)
        (fun h0 hk0 => ihr (depth + 1) h0 _ hpr hk0)
      exact ⟨h3, hf, hk3.of_perm (candidates_node _ _ _ _ _ _ _)⟩
    · obtain ⟨h2, hn, hk2⟩ := ihr (depth + 1) h1 _ hpr hk1
      simp only [hc, decide_False, if_false, hn, Option.some_bind, Bool.false_eq_true,
        Part2.far_child_generic]
      obtain ⟨h3, hf, hk3⟩ := exploreFar_kbest K hK h2 _
        (candidates ops.distance q l.toList)
        (abs (ops.getCoordinate q (depth % ops.Dim) - ops.getCoordinate e (depth % ops.Dim)))
        (Part2.knnSearch ops q l (depth + 1) K) hk2
        (by
          intro y hy
          obtain ⟨x, hx, rfl⟩ := List.mem_map.mp hy
          refine le_trans ?_ (hgap x.1 _ hlt)
          have h1 := hleft x hx
          have h2 := not_lt.mp hc
          rw [abs_of_nonneg (by linarith), abs_of_nonneg (by linarith)]
          linarith)
        (fun h0 hk0 => ihl (depth + 1) h0 _ hpl hk0)
      refine ⟨h3, hf, hk3.of_perm ?_⟩
      refine List.Perm.trans ?_ (candidates_node _ _ _ _ _ _ _)
      rw [← List.append_assoc, ← List.append_assoc]
      exact List.Perm.append_right _ List.perm_append_comm

/-- The far child chosen by the pointer test of the scalar search is the child that was not
chosen as near. -/
theorem Part1.far_child_scalar (q : F) (l r : Node F) (depth : Nat) (K : Int)
    (h : MaxHeap F) :
    (if (false || (l.isNull && r.isNull)) = true then Part1.knnSearch q r depth K h
      else Part1.knnSearch q l depth K h) = Part1.knnSearch q l depth K h := by
  cases l <;> cases r <;> simp [Node.isNull, Part1.knnSearch]

theorem Part1.knnSearch_kbest_scalar (q : F) (K : Int) (hK : 1 ≤ K) :
    ∀ (t : Node F) (depth : Nat) (h : MaxHeap F) (A : List (PQItem F)),
      Node.Partitioned Part1.getCoordinate 1 t depth → KBest K h A →
      ∃ h3, Part1.knnSearch q t depth K h = some h3 ∧
        KBest K h3 (candidates Part1.distance q t.toList ++ A) := by
  intro t
  induction t with
  | nil =>
    intro depth h A _ hk
    exact ⟨h, rfl, by simpa [candidates, Node.toList] using hk⟩
  | node e i l r ihl ihr =>
    intro depth h A hpart hk
    obtain ⟨hleft, hright, hpl, hpr⟩ := hpart
    simp only [Part1.getCoordinate] at hleft hright
    simp only [Part1.knnSearch]
    by_cases hc : q < e
    · obtain ⟨h1, hn, hk1⟩ := ihl (depth + 1) h _ hpl hk
      obtain ⟨h2, hu, hk2⟩ := heapUpdate_kbest K hK h1 _ (Part1.distance q e) i hk1
      simp only [hc, decide_True, if_true, hn, hu, Option.some_bind, Bool.true_or]
      obtain ⟨h3, hf, hk3⟩ := exploreFar_kbest K hK h2 _
        (candidates Part1.distance q r.toList) (Part1.distance q e)
        (Part1.knnSearch q r (depth + 1) K) hk2
        (by
          intro y hy
          obtain ⟨x, hx, rfl⟩ := List.mem_map.mp hy
          have h1 := hright x hx
          simp only [Part1.distance]
          rw [abs_of_neg (by linarith), abs_of_neg (by linarith)]
          linarith)
        (fun h0 hk0 => ihr (depth + 1) h0 _ hpr hk0)
      refine ⟨h3, hf, hk3.of_perm ?_⟩
      refine List.Perm.trans ?_ (candidates_node _ _ _ _ _ _ _)
      exact List.Perm.append_left _ List.perm_middle.symm
    · obtain ⟨h1, hn, hk1⟩ := ihr (depth + 1) h _ hpr hk
      obtain ⟨h2, hu, hk2⟩ := heapUpdate_kbest K hK h1 _ (Part1.distance q e) i hk1
      simp only [hc, decide_False, if_false, hn, hu, Option.some_bind, Bool.false_eq_true,
        Part1.far_child_scalar]
      obtain ⟨h3, hf, hk3⟩ := exploreFar_kbest K hK h2 _
        (candidates Part1.distance q l.toList) (Part1.distance q e)
        (Part1.knnSearch q l (depth + 1) K) hk2
        (by
          intro y hy
          obtain ⟨x, hx, rfl⟩ := List.mem_map.mp hy
          have h1 := hleft x hx
          have h2 := not_lt.mp hc
          simp only [Part1.distance]
          rw [abs_of_nonneg (by linarith), abs_of_nonneg (by linarith)]
          linarith)
        (fun h0 hk0 => ihl (depth + 1) h0 _ hpl hk0)
      refine ⟨h3, hf, hk3.of_perm ?_⟩
      have e : candidates Part1.distance q (Node.node e i l r).toList ++ A =
          candidates Part1.distance q l.toList ++
            (Part1.distance q e, i) :: (candidates Part1.distance q r.toList ++ A) := by
        simp [candidates, Node.toList]
      rw [e]

/-- The scalar builder returns a tree ordered by embedding. -/
theorem Part1.buildKDAux_partitioned_scalar (S : StdSort (F × Int))
    (fuel : Nat) (items : List (F × Int)) (depth : Nat) (h : items.length ≤ fuel) :
    Node.Partitioned Part1.getCoordinate 1 (Part1.buildKDAux S fuel items depth) depth := by
  have key := Part1.buildKDAux_induction_scalar S
    (fun items depth t => t.toList.Perm items ∧ Node.Partitioned Part1.getCoordinate 1 t depth)
    (fun _ => ⟨List.Perm.refl _, trivial⟩) ?_ fuel items depth h
  · exact key.2
  intro items depth sorted m l r _ hperm hsorted hm hl hr
  refine ⟨?_, ?_⟩
  · simp only [Node.toList]
    refine List.Perm.trans ?_ (List.Perm.trans (perm_split_at sorted _ m hm) hperm)
    exact List.Perm.append hl.1 (List.Perm.cons _ hr.1)
  · obtain ⟨hbefore, hafter⟩ := pairwise_split_at _ sorted _ m hm hsorted
    have hle : ∀ a b : F × Int, Part1.itemLess b a = false → a.1 ≤ b.1 := by
      intro a b hab
      rw [Part1.itemLess_eq_false_scalar] at hab
      rcases hab with h | ⟨h, _⟩
      · exact le_of_lt h
      · exact le_of_eq h.symm
    refine ⟨?_, ?_, hl.2, hr.2⟩
    · intro x hx
      exact hle x m (hbefore x (hl.1.subset hx))
    · intro x hx
      exact hle m x (hafter x (hr.1.subset hx))

/-! ## The coordinate gap is a lower bound of the distance -/

theorem foldl_add_le (g : Nat → F) (hg : ∀ i, 0 ≤ g i) :
    ∀ (l : List Nat) (s0 : F), s0 ≤ l.foldl (fun s i => s + g i) s0 := by
  intro l
  induction l with
  | nil => intro s0; exact le_refl _
  | cons x xs ih =>
    intro s0
    exact le_trans (le_add_of_nonneg_right (hg x)) (ih (s0 + g x))

theorem foldl_add_mem_le (g : Nat → F) (hg : ∀ i, 0 ≤ g i) :
    ∀ (l : List Nat) (s0 : F), 0 ≤ s0 → ∀ a ∈ l, g a ≤ l.foldl (fun s i => s + g i) s0 := by
  intro l
  induction l with
  | nil => intro _ _ a ha; simp at ha
  | cons x xs ih =>
    intro s0 hs a ha
    rcases List.mem_cons.mp ha with h | h
    · subst h
      exact le_trans (le_add_of_nonneg_left hs) (foldl_add_le g hg xs (s0 + g a))
    · exact ih (s0 + g x) (add_nonneg hs (hg x)) a h

/-- For the vector representation the gap on an axis below `D` is at most the distance,
provided `sqrt` is monotone on non-negative numbers and `sqrt (x * x) = x` for `x ≥ 0`. -/
theorem Part2.vector_gap_le_distance_generic (sqrt : F → F)
    (hmono : ∀ x y, 0 ≤ x → x ≤ y → sqrt x ≤ sqrt y)
    (hsq : ∀ x, 0 ≤ x → sqrt (x * x) = x) (D : Nat) (q p : List F) (a : Nat) (ha : a < D) :
    abs ((Part2.vectorEmbedding sqrt D).getCoordinate q a -
        (Part2.vectorEmbedding sqrt D).getCoordinate p a) ≤
      (Part2.vectorEmbedding sqrt D).distance q p := by
  simp only [Part2.vectorEmbedding, Part2.sumSquares]
  rw [← hsq (abs (q.getD a 0 - p.getD a 0)) (abs_nonneg _), abs_mul_abs_self]
  apply hmono _ _ (mul_self_nonneg _)
  exact foldl_add_mem_le (fun i => (q.getD i 0 - p.getD i 0) * (q.getD i 0 - p.getD i 0))
    (fun i => mul_self_nonneg _) (List.range D) 0 (le_refl _) a (List.mem_range.mpr ha)

/-- For the scalar representation the gap is the distance. -/
theorem Part2.scalar_gap_le_distance_generic (q p : F) (a : Nat) :
    abs ((Part2.scalarEmbedding : Part2.Embedding_T F F).getCoordinate q a -
        (Part2.scalarEmbedding : Part2.Embedding_T F F).getCoordinate p a) ≤
      (Part2.scalarEmbedding : Part2.Embedding_T F F).distance q p :=
  le_refl _

/-! ## Reading the result off the accumulator -/

/-- When at least as many pairs may be held as there are candidates, the accumulator holds
every candidate exactly once. -/
theorem KBest.all_of_le {K : Int} {h : MaxHeap F} {A : List (PQItem F)} (hk : KBest K h A)
    (hA : (A.length : Int) ≤ K) : h.Perm A := by
  obtain ⟨R, hperm, hle, hfew, _⟩ := hk
  have hR : R = [] := by
    by_cases hlt : (h.length : Int) < K
    · exact hfew hlt
    · have hl := hperm.length_eq
      rw [List.length_append] at hl
      apply List.length_eq_zero.mp
      omega
  subst hR
  simpa using hperm

theorem KBest.length_eq {K : Int} {h : MaxHeap F} {A : List (PQItem F)} (hk : KBest K h A) :
    h.length = min K.toNat A.length := by
  obtain ⟨R, hperm, hle, hfew, _⟩ := hk
  have hl := hperm.length_eq
  rw [List.length_append] at hl
  by_cases hlt : (h.length : Int) < K
  · have hR := hfew hlt
    subst hR
    simp only [List.length_nil, Nat.add_zero] at hl
    omega
  · omega

/-- The distances held by the accumulator are the first `K` of the ordered distances. -/
theorem KBest.dists_eq {K : Int} {h : MaxHeap F} {A : List (PQItem F)} (hk : KBest K h A) :
    (h.map Prod.fst).Perm
      (((A.map Prod.fst).insertionSort (fun a b => a ≤ b)).take K.toNat) := by
  obtain ⟨R, hperm, hle, hfew, hord⟩ := hk
  have hs1 := List.sorted_insertionSort (fun a b : F => a ≤ b) (h.map Prod.fst)
  have hs2 := List.sorted_insertionSort (fun a b : F => a ≤ b) (R.map Prod.fst)
  have hp1 := List.perm_insertionSort (fun a b : F => a ≤ b) (h.map Prod.fst)
  have hp2 := List.perm_insertionSort (fun a b : F => a ≤ b) (R.map Prod.fst)
  have hsorted : ((h.map Prod.fst).insertionSort (fun a b => a ≤ b) ++
      (R.map Prod.fst).insertionSort (fun a b => a ≤ b)).Sorted (fun a b => a ≤ b) := by
    refine List.pairwise_append.mpr ⟨hs1, hs2, ?_⟩
    intro a ha b hb
    obtain ⟨x, hx, rfl⟩ := List.mem_map.mp (hp1.subset ha)
    obtain ⟨y, hy, rfl⟩ := List.mem_map.mp (hp2.subset hb)
    exact hord x hx y hy
  have hpermAll : ((h.map Prod.fst).insertionSort (fun a b => a ≤ b) ++
      (R.map Prod.fst).insertionSort (fun a b => a ≤ b)).Perm
      ((A.map Prod.fst).insertionSort (fun a b => a ≤ b)) := by
    refine List.Perm.trans (List.Perm.append hp1 hp2) ?_
    rw [← List.map_append]
    exact (hperm.map _).trans (List.perm_insertionSort _ _).symm
  have heq := List.eq_of_perm_of_sorted hpermAll hsorted
    (List.sorted_insertionSort (fun a b : F => a ≤ b) (A.map Prod.fst))
  rw [← heq]
  have hlen : ((h.map Prod.fst).insertionSort (fun a b => a ≤ b)).length = h.length := by
    rw [List.length_insertionSort, List.length_map]
  by_cases hlt : (h.length : Int) < K
  · have hR := hfew hlt
    subst hR
    simp only [List.map_nil, List.insertionSort, List.append_nil]
    rw [List.take_of_length_le (by rw [hlen]; omega)]
    exact hp1.symm
  · have hK : K.toNat = ((h.map Prod.fst).insertionSort (fun a b => a ≤ b)).length := by
      rw [hlen]; omega
    rw [hK, List.take_left]
    exact hp1.symm

/-! ## Claims on the search result -/

theorem candidates_map_fst {G : Type} (dist : E → E → G) (q : E) (items : List (E × Int)) :
    (candidates dist q items).map Prod.fst = items.map (fun it => dist q it.1) := by
  simp [candidates, List.map_map, Function.comp_def]

/-- The generic search on a built tree, started with an empty accumulator, ends with `K`
nearest of the candidates of the input items. -/
theorem Part2.search_build_kbest_generic (S : StdSort (E × Int)) (ops : Part2.Embedding_T E F)
    (q : E) (K : Int) (hK : 1 ≤ K) (hD : 1 ≤ ops.Dim)
    (hgap : ∀ p a, a < ops.Dim →
      abs (ops.getCoordinate q a - ops.getCoordinate p a) ≤ ops.distance q p)
    (items : List (E × Int)) :
    ∃ heap, Part2.knnSearch ops q (Part2.buildKD S ops items 0) 0 K [] = some heap ∧
      KBest K heap (candidates ops.distance q items) := by
  obtain ⟨heap, h1, h2⟩ := Part2.knnSearch_kbest_generic ops q K hK hD hgap
    (Part2.buildKD S ops items 0) 0 [] []
    (Part2.buildKDAux_partitioned_generic S ops hD _ items 0 (le_refl _))
    (KBest.nil K (by omega))
  refine ⟨heap, h1, h2.of_perm ?_⟩
  rw [List.append_nil]
  exact (Part2.buildKDAux_toList_perm_generic S ops _ items 0 (le_refl _)).map _

/-- The scalar search on a built tree, started with an empty accumulator, ends with `K`
nearest of the candidates of the input items. -/
theorem Part1.search_build_kbest_scalar (S : StdSort (F × Int)) (q : F) (K : Int)
    (hK : 1 ≤ K) (items : List (F × Int)) :
    ∃ heap, Part1.knnSearch q (Part1.buildKD S items 0) 0 K [] = some heap ∧
      KBest K heap (candidates Part1.distance q items) := by
  obtain ⟨heap, h1, h2⟩ := Part1.knnSearch_kbest_scalar q K hK
    (Part1.buildKD S items 0) 0 [] []
    (Part1.buildKDAux_partitioned_scalar S _ items 0 (le_refl _))
    (KBest.nil K (by omega))
  refine ⟨heap, h1, h2.of_perm ?_⟩
  rw [List.append_nil]
  exact (Part1.buildKDAux_toList_perm_scalar S _ items 0 (le_refl _)).map _

/-- C1: exact search, generic variant. For every `D ≥ 1`, every list of items with
embeddings of length `D`, every query `q` of length `D` and every `K ≥ 1`, the generic
`knnSearch` run from depth 0 with an empty accumulator on `buildKD(items, 0)` returns, and
the multiset of distances it leaves in the accumulator is the multiset of the `min(K, N)`
smallest values of `distance(q, e)` over all items (brute force). `sqrt` is any function
that is monotone on non-negative numbers with `sqrt (x * x) = x` for `x ≥ 0`. -/
theorem C1_exact_search_generic (S : StdSort (List F × Int)) (sqrt : F → F) (D : Nat)
    (items : List (List F × Int)) (q : List F) (K : Int)
    (hmono : ∀ x y, 0 ≤ x → x ≤ y → sqrt x ≤ sqrt y)
    (hsq : ∀ x, 0 ≤ x → sqrt (x * x) = x)
    (hD : 1 ≤ D) (_hlen : ∀ it ∈ items, it.1.length = D) (_hq : q.length = D)
    (hK : 1 ≤ K) :
    ∃ heap, Part2.knnSearch (Part2.vectorEmbedding sqrt D) q
        (Part2.buildKD S (Part2.vectorEmbedding sqrt D) items 0) 0 K [] = some heap ∧
      (Multiset.ofList (heap.map Prod.fst) =
        Multiset.ofList (bruteForce (Part2.vectorEmbedding sqrt D).distance q K.toNat items)) ∧
      heap.length = min K.toNat items.length := by
  obtain ⟨heap, h1, h2⟩ := Part2.search_build_kbest_generic S (Part2.vectorEmbedding sqrt D)
    q K hK hD (fun p a ha => Part2.vector_gap_le_distance_generic sqrt hmono hsq D q p a ha)
    items
  refine ⟨heap, h1, ?_, ?_⟩
  · apply Multiset.coe_eq_coe.mpr
    have h3 := h2.dists_eq
    rw [candidates_map_fst] at h3
    exact h3
  · have h3 := h2.length_eq
    simpa [candidates] using h3

/-- C2: exact search, scalar variant. For every list of (scalar, idx) items, every query `q`
and every `K ≥ 1`, the scalar `knnSearch` run from depth 0 with an empty accumulator on the
tree of the scalar `buildKD(items, 0)` returns, and the multiset of distances it leaves in
the accumulator is the multiset of the `min(K, N)` smallest values of `|q - e|` over all
items. -/
theorem C2_exact_search_scalar (S : StdSort (F × Int)) (items : List (F × Int)) (q : F)
    (K : Int) (hK : 1 ≤ K) :
    ∃ heap, Part1.knnSearch q (Part1.buildKD S items 0) 0 K [] = some heap ∧
      (Multiset.ofList (heap.map Prod.fst) =
        Multiset.ofList (bruteForce Part1.distance q K.toNat items)) ∧
      heap.length = min K.toNat items.length := by
  obtain ⟨heap, h1, h2⟩ := Part1.search_build_kbest_scalar S q K hK items
  refine ⟨heap, h1, ?_, ?_⟩
  · apply Multiset.coe_eq_coe.mpr
    have h3 := h2.dists_eq
    rw [candidates_map_fst] at h3
    exact h3
  · have h3 := h2.length_eq
    simpa [candidates] using h3

/-- C2 on the items `{0:10, 1:20, 2:30, 3:40, 4:50}` with `K = 2` and query 25: the
accumulator ends with exactly the pairs `(5, 1)` and `(5, 2)`. -/
theorem C2_exact_search_scalar_witness :
    ((1 : Int) ≤ 2) ∧
    (∃ heap, Part1.knnSearch (25 : ℚ) (Part1.buildKD (insertionStdSort _)
        [(10, 0), (20, 1), (30, 2), (40, 3), (50, 4)] 0) 0 2 [] = some heap ∧
      (Multiset.ofList (heap.map Prod.fst) =
        Multiset.ofList (bruteForce Part1.distance (25 : ℚ) (2 : Int).toNat
          [(10, 0), (20, 1), (30, 2), (40, 3), (50, 4)])) ∧
      heap.length = min (2 : Int).toNat
        ([(10, 0), (20, 1), (30, 2), (40, 3), (50, 4)] : List (ℚ × Int)).length) ∧
    Part1.knnSearch (25 : ℚ) (Part1.buildKD (insertionStdSort _)
        [(10, 0), (20, 1), (30, 2), (40, 3), (50, 4)] 0) 0 2 [] = some [(5, 2), (5, 1)] ∧
    bruteForce Part1.distance (25 : ℚ) 2 [(10, 0), (20, 1), (30, 2), (40, 3), (50, 4)]
      = [5, 5] :=
  ⟨by decide, C2_exact_search_scalar _ _ 25 2 (by decide), by decide!, by decide!⟩

/-- C3: completeness for `K ≥ N`. For every list of `N` items (scalar variant, or generic
variant with embeddings of length `D ≥ 1`), every query and every `K ≥ max(1, N)`,
`knnSearch` started from depth 0 with an empty accumulator on `buildKD(items, 0)` returns,
and the accumulator it leaves is, as a multiset of (distance, idx) pairs, exactly the
pairs `(distance(q, e), idx)` of the input items, each once. -/
theorem C3_complete_when_K_ge_N (S1 : StdSort (F × Int)) (items1 : List (F × Int)) (q1 : F)
    (K1 : Int) (S2 : StdSort (List F × Int)) (sqrt : F → F) (D : Nat)
    (items2 : List (List F × Int)) (q2 : List F) (K2 : Int)
    (hK1 : max 1 (items1.length : Int) ≤ K1)
    (hmono : ∀ x y, 0 ≤ x → x ≤ y → sqrt x ≤ sqrt y)
    (hsq : ∀ x, 0 ≤ x → sqrt (x * x) = x)
    (hD : 1 ≤ D) (_hlen : ∀ it ∈ items2, it.1.length = D) (_hq : q2.length = D)
    (hK2 : max 1 (items2.length : Int) ≤ K2) :
    (∃ heap, Part1.knnSearch q1 (Part1.buildKD S1 items1 0) 0 K1 [] = some heap ∧
      Multiset.ofList heap =
        Multiset.ofList (items1.map (fun it => (Part1.distance q1 it.1, it.2)))) ∧
    (∃ heap, Part2.knnSearch (Part2.vectorEmbedding sqrt D) q2
        (Part2.buildKD S2 (Part2.vectorEmbedding sqrt D) items2 0) 0 K2 [] = some heap ∧
      Multiset.ofList heap = Multiset.ofList
        (items2.map (fun it => ((Part2.vectorEmbedding sqrt D).distance q2 it.1, it.2)))) := by
  constructor
  · obtain ⟨heap, h1, h2⟩ := Part1.search_build_kbest_scalar S1 q1 K1
      (le_trans (le_max_left _ _) hK1) items1
    refine ⟨heap, h1, Multiset.coe_eq_coe.mpr ?_⟩
    exact h2.all_of_le (by simpa [candidates] using le_trans (le_max_right _ _) hK1)
  · obtain ⟨heap, h1, h2⟩ := Part2.search_build_kbest_generic S2
      (Part2.vectorEmbedding sqrt D) q2 K2 (le_trans (le_max_left _ _) hK2) hD
      (fun p a ha => Part2.vector_gap_le_distance_generic sqrt hmono hsq D q2 p a ha) items2
    refine ⟨heap, h1, Multiset.coe_eq_coe.mpr ?_⟩
    exact h2.all_of_le (by simpa [candidates] using le_trans (le_max_right _ _) hK2)

/-! ## The scenario of the spec over the real numbers -/

/-- The spec scenario: the generic builder on `id0=(0,0)`, `id1=(1,1)`, `id2=(5,5)`, `D = 2`,
over the reals. -/
theorem scenario_tree_real :
    Part2.buildKD (insertionStdSort _) (Part2.vectorEmbedding Real.sqrt 2)
      [([0, 0], 0), ([1, 1], 1), ([5, 5], 2)] 0 =
    Node.node [1, 1] 1 (Node.node [0, 0] 0 Node.nil Node.nil)
      (Node.node [5, 5] 2 Node.nil Node.nil) := by
  simp [Part2.buildKD, Part2.buildKDAux, insertionStdSort, Part2.itemLess,
    Part2.itemLessLoop, Part2.splitAxis, Part2.vectorEmbedding, List.range, List.range.loop,
    List.insertionSort, List.orderedInsert]

/-- The spec scenario: the search for `q = (0.5, 0.5)` with `K = 1` ends with the single
pair `(sqrt 0.5, id1)`. -/
theorem scenario_search_real :
    Part2.knnSearch (Part2.vectorEmbedding Real.sqrt 2) [1 / 2, 1 / 2]
      (Node.node [1, 1] 1 (Node.node [0, 0] 0 Node.nil Node.nil)
      (Node.node [5, 5] 2 Node.nil Node.nil)) 0 1 [] = some [(Real.sqrt (1 / 2), 1)] := by
  have hd1 : (Part2.vectorEmbedding Real.sqrt 2).distance [1 / 2, 1 / 2] [(1 : ℝ), 1] =
      Real.sqrt (1 / 2) := by
    simp only [Part2.vectorEmbedding]
    congr 1
    simp [Part2.sumSquares, List.range, List.range.loop]; norm_num
  have hd0 : (Part2.vectorEmbedding Real.sqrt 2).distance [1 / 2, 1 / 2] [(0 : ℝ), 0] =
      Real.sqrt (1 / 2) := by
    simp only [Part2.vectorEmbedding]
    congr 1
    simp [Part2.sumSquares, List.range, List.range.loop]; norm_num
  have hd5 : (Part2.vectorEmbedding Real.sqrt 2).distance [1 / 2, 1 / 2] [(5 : ℝ), 5] =
      Real.sqrt (81 / 2) := by
    simp only [Part2.vectorEmbedding]
    congr 1
    simp [Part2.sumSquares, List.range, List.range.loop]; norm_num
  have s1 : (1 / 2 : ℝ) < Real.sqrt (1 / 2) := by
    rw [Real.lt_sqrt (by norm_num)]; norm_num
  have s2 : ¬ Real.sqrt (81 / 2) < Real.sqrt (1 / 2) := by
    rw [not_lt]; exact Real.sqrt_le_sqrt (by norm_num)
  have hc : ∀ (v : List ℝ) (a : Nat),
      (Part2.vectorEmbedding Real.sqrt 2).getCoordinate v a = v.getD a 0 := fun _ _ => rfl
  have hdim : (Part2.vectorEmbedding Real.sqrt 2).Dim = 2 := rfl
  simp only [Part2.knnSearch, hd1, hd0, hd5, hc, hdim]
  generalize Real.sqrt (1 / 2) = r at s1 s2 ⊢
  generalize Real.sqrt (81 / 2) = r5 at s2 ⊢
  have a1 : |(1 / 2 : ℝ) - 1| = 1 / 2 := by rw [abs_of_neg (by norm_num)]; norm_num
  have a0 : |(1 / 2 : ℝ) - 0| = 1 / 2 := by rw [abs_of_pos (by norm_num)]; norm_num
  have c1 : (1 / 2 : ℝ) < 1 := by norm_num
  have c0 : ¬ (1 / 2 : ℝ) < 0 := by norm_num
  have c5 : (1 / 2 : ℝ) < 5 := by norm_num
  simp only [Part2.splitAxis, heapUpdate, exploreFar, MaxHeap.top, MaxHeap.push, MaxHeap.pop,
    Node.isNull, List.getD_cons_zero, List.getD_cons_succ, Nat.zero_mod, Nat.reduceMod,
    Nat.reduceAdd, List.length_nil, List.length_cons, Nat.cast_zero, Nat.cast_one,
    Int.reduceLT, if_true, if_false, Option.some_bind, List.foldl_nil, lt_irrefl, s1, s2, a1,
    a0, c1, c0, c5, ite_self, Bool.or_true, decide_True, decide_False, Bool.true_or,
    Bool.false_or, Bool.and_self, Bool.or_self, zero_add, Nat.cast_ofNat,
    OfNat.ofNat_ne_zero, Nat.succ_ne_zero, Nat.reduceEqDiff, ite_true, ite_false, one_ne_zero,
    two_ne_zero, Bool.false_eq_true]

/-- C1 over the reals with `Real.sqrt`, on the points `id0=(0,0)`, `id1=(1,1)`, `id2=(5,5)`,
`D = 2`, `q = (0.5, 0.5)`, `K = 1`: the accumulator ends with one pair, of distance
`sqrt 0.5` and idx 1. -/
theorem C1_exact_search_generic_witness :
    ((∀ x y : ℝ, 0 ≤ x → x ≤ y → Real.sqrt x ≤ Real.sqrt y) ∧
      (∀ x : ℝ, 0 ≤ x → Real.sqrt (x * x) = x) ∧ 1 ≤ 2 ∧
      (∀ it ∈ ([([0, 0], 0), ([1, 1], 1), ([5, 5], 2)] : List (List ℝ × Int)),
        it.1.length = 2) ∧
      ([1 / 2, 1 / 2] : List ℝ).length = 2 ∧ (1 : Int) ≤ 1) ∧
    (∃ heap, Part2.knnSearch (Part2.vectorEmbedding Real.sqrt 2) [1 / 2, 1 / 2]
        (Part2.buildKD (insertionStdSort _) (Part2.vectorEmbedding Real.sqrt 2)
          [([0, 0], 0), ([1, 1], 1), ([5, 5], 2)] 0) 0 1 [] = some heap ∧
      (Multiset.ofList (heap.map Prod.fst) =
        Multiset.ofList (bruteForce (Part2.vectorEmbedding Real.sqrt 2).distance
          [1 / 2, 1 / 2] (1 : Int).toNat [([0, 0], 0), ([1, 1], 1), ([5, 5], 2)])) ∧
      heap.length = min (1 : Int).toNat
        ([([0, 0], 0), ([1, 1], 1), ([5, 5], 2)] : List (List ℝ × Int)).length) ∧
    Part2.knnSearch (Part2.vectorEmbedding Real.sqrt 2) [1 / 2, 1 / 2]
        (Part2.buildKD (insertionStdSort _) (Part2.vectorEmbedding Real.sqrt 2)
          [([0, 0], 0), ([1, 1], 1), ([5, 5], 2)] 0) 0 1 [] =
      some [(Real.sqrt (1 / 2), 1)] :=
  ⟨⟨fun _ _ _ h => Real.sqrt_le_sqrt h, fun _ h => Real.sqrt_mul_self h, by decide,
      by simp, by simp, by decide⟩,
    C1_exact_search_generic (insertionStdSort _) Real.sqrt 2 _ _ 1
      (fun _ _ _ h => Real.sqrt_le_sqrt h) (fun _ h => Real.sqrt_mul_self h) (by decide)
      (by simp) (by simp) (by decide),
    by rw [scenario_tree_real]; exact scenario_search_real⟩

/-- C3 over the reals with `Real.sqrt`: three scalar items with `K = 5`, and the three points
`(0,0)`, `(1,1)`, `(5,5)` with `D = 2` and `K = 3`; over the rationals the scalar search
returns all three pairs. -/
theorem C3_complete_when_K_ge_N_witness :
    (max 1 ((([(10, 0), (20, 1), (30, 2)] : List (ℝ × Int)).length : Nat) : Int) ≤ 5 ∧
      max 1 ((([([0, 0], 0), ([1, 1], 1), ([5, 5], 2)] : List (List ℝ × Int)).length : Nat) :
        Int) ≤ 3) ∧
    ((∃ heap, Part1.knnSearch (25 : ℝ) (Part1.buildKD (insertionStdSort _)
          [(10, 0), (20, 1), (30, 2)] 0) 0 5 [] = some heap ∧
        Multiset.ofList heap = Multiset.ofList
          (([(10, 0), (20, 1), (30, 2)] : List (ℝ × Int)).map
            (fun it => (Part1.distance 25 it.1, it.2)))) ∧
      (∃ heap, Part2.knnSearch (Part2.vectorEmbedding Real.sqrt 2) [1 / 2, 1 / 2]
          (Part2.buildKD (insertionStdSort _) (Part2.vectorEmbedding Real.sqrt 2)
            [([0, 0], 0), ([1, 1], 1), ([5, 5], 2)] 0) 0 3 [] = some heap ∧
        Multiset.ofList heap = Multiset.ofList
          (([([0, 0], 0), ([1, 1], 1), ([5, 5], 2)] : List (List ℝ × Int)).map
            (fun it => ((Part2.vectorEmbedding Real.sqrt 2).distance [1 / 2, 1 / 2] it.1,
              it.2))))) ∧
    Part1.knnSearch (25 : ℚ) (Part1.buildKD (insertionStdSort _)
        [(10, 0), (20, 1), (30, 2)] 0) 0 5 [] = some [(15, 0), (5, 1), (5, 2)] :=
  ⟨⟨by simp, by simp⟩,
    C3_complete_when_K_ge_N (insertionStdSort _) _ 25 5 (insertionStdSort _) Real.sqrt 2 _
      [1 / 2, 1 / 2] 3 (by simp) (fun _ _ _ h => Real.sqrt_le_sqrt h)
      (fun _ h => Real.sqrt_mul_self h) (by decide) (by simp) (by simp) (by simp),
    by decide!⟩

/-! ## The accumulator is defined and bounded -/

/-- The node-update step is defined when `K ≥ 1` or the accumulator is non-empty; it never
shrinks the accumulator and adds a pair only while fewer than `K` are held. -/
theorem heapUpdate_defined (K : Int) (h : MaxHeap F) (d : F) (idx : Int)
    (hok : 1 ≤ K ∨ h ≠ []) :
    ∃ h2, heapUpdate K h d idx = some h2 ∧ h.length ≤ h2.length ∧
      (h2.length : Int) ≤ max K h.length := by
  unfold heapUpdate
  by_cases hlt : (h.length : Int) < K
  · rw [if_pos hlt]
    refine ⟨_, rfl, ?_, ?_⟩
    · simp [MaxHeap.push]
    · simp only [MaxHeap.push, List.length_cons]
      push_cast
      have := le_max_left K (h.length : Int)
      omega
  · rw [if_neg hlt]
    have hne : h ≠ [] := by
      rcases hok with hK | hne
      · intro hc
        subst hc
        simp at hlt
        omega
      · exact hne
    obtain ⟨t, ht, hmem, _⟩ := MaxHeap.top_spec h hne
    rw [ht]
    simp only
    have hpos : 0 < h.length := List.length_pos.mpr hne
    by_cases hd : d < t.1
    · rw [if_pos hd]
      refine ⟨_, rfl, ?_, ?_⟩
      · simp only [MaxHeap.push, MaxHeap.pop, ht, List.length_cons,
          List.length_erase_of_mem hmem]
        omega
      · simp only [MaxHeap.push, MaxHeap.pop, ht, List.length_cons,
          List.length_erase_of_mem hmem]
        have := le_max_right K (h.length : Int)
        omega
    · rw [if_neg hd]
      exact ⟨_, rfl, le_refl _, le_max_right _ _⟩

/-- The far-side test is defined when `K ≥ 1` or the accumulator is non-empty. -/
theorem exploreFar_defined (K : Int) (h : MaxHeap F) (g : F) (hok : 1 ≤ K ∨ h ≠ []) :
    ∃ go, exploreFar K h g = some go := by
  unfold exploreFar
  by_cases hlt : (h.length : Int) < K
  · rw [if_pos hlt]
    exact ⟨_, rfl⟩
  · rw [if_neg hlt]
    have hne : h ≠ [] := by
      rcases hok with hK | hne
      · intro hc
        subst hc
        simp at hlt
        omega
      · exact hne
    obtain ⟨t, ht, _, _⟩ := MaxHeap.top_spec h hne
    rw [ht]
    exact ⟨_, rfl⟩

/-- Carrying the side condition from one accumulator to a later, no smaller one. -/
theorem defined_mono {α : Type} (K : Int) (h h2 : List α) (hok : 1 ≤ K ∨ h ≠ [])
    (hle : h.length ≤ h2.length) : 1 ≤ K ∨ h2 ≠ [] := by
  rcases hok with hK | hne
  · exact Or.inl hK
  · right
    intro hc
    subst hc
    exact hne (List.length_eq_zero.mp (Nat.le_zero.mp hle))

/-- The generic search returns when `K ≥ 1` or the accumulator is non-empty; the accumulator
never shrinks and never exceeds the larger of `K` and its starting size. -/
theorem Part2.knnSearch_defined_generic (ops : Part2.Embedding_T E F) (q : E) (K : Int) :
    ∀ (t : Node E) (depth : Nat) (h : MaxHeap F), (1 ≤ K ∨ h ≠ []) →
      ∃ h3, Part2.knnSearch ops q t depth K h = some h3 ∧ h.length ≤ h3.length ∧
        (h3.length : Int) ≤ max K h.length := by
  intro t
  induction t with
  | nil =>
    intro depth h _
    exact ⟨h, rfl, le_refl _, le_max_right _ _⟩
  | node e i l r ihl ihr =>
    intro depth h hok
    obtain ⟨h1, hu, hl1, hu1⟩ := heapUpdate_defined K h (ops.distance q e) i hok
    have hok1 := defined_mono K h h1 hok hl1
    simp only [Part2.knnSearch, hu, Option.some_bind]
    have hnear : ∃ h2, (if decide (ops.getCoordinate q (Part2.splitAxis ops.Dim depth) <
          ops.getCoordinate e (Part2.splitAxis ops.Dim depth)) = true
        then Part2.knnSearch ops q l (depth + 1) K h1
        else Part2.knnSearch ops q r (depth + 1) K h1) = some h2 ∧ h1.length ≤ h2.length ∧
        (h2.length : Int) ≤ max K h1.length := by
      split
      · exact ihl (depth + 1) h1 hok1
      · exact ihr (depth + 1) h1 hok1
    obtain ⟨h2, hn, hl2, hu2⟩ := hnear
    have hok2 := defined_mono K h1 h2 hok1 hl2
    rw [hn]
    simp only [Option.some_bind]
    obtain ⟨go, hgo⟩ := exploreFar_defined K h2
      (abs (ops.getCoordinate q (Part2.splitAxis ops.Dim depth) -
        ops.getCoordinate e (Part2.splitAxis ops.Dim depth))) hok2
    rw [hgo]
    simp only [Option.some_bind]
    have hb1 : (h1.length : Int) ≤ max K h.length := hu1
    have hb2 : (h2.length : Int) ≤ max K h.length := le_trans hu2 (max_le (le_max_left _ _) hb1)
    cases go with
    | false =>
      exact ⟨h2, by simp, le_trans hl1 hl2, hb2⟩
    | true =>
      simp only [if_true]
      have hfar : ∃ h3, (if (decide (ops.getCoordinate q (Part2.splitAxis ops.Dim depth) <
            ops.getCoordinate e (Part2.splitAxis ops.Dim depth)) ||
            (l.isNull && r.isNull)) = true
          then Part2.knnSearch ops q r (depth + 1) K h2
          else Part2.knnSearch ops q l (depth + 1) K h2) = some h3 ∧ h2.length ≤ h3.length ∧
          (h3.length : Int) ≤ max K h2.length := by
        split
        · exact ihr (depth + 1) h2 hok2
        · exact ihl (depth + 1) h2 hok2
      obtain ⟨h3, hf, hl3, hu3⟩ := hfar
      exact ⟨h3, hf, le_trans (le_trans hl1 hl2) hl3,
        le_trans hu3 (max_le (le_max_left _ _) hb2)⟩

/-- The scalar search returns when `K ≥ 1` or the accumulator is non-empty; the accumulator
never shrinks and never exceeds the larger of `K` and its starting size. -/
theorem Part1.knnSearch_defined_scalar (q : F) (K : Int) :
    ∀ (t : Node F) (depth : Nat) (h : MaxHeap F), (1 ≤ K ∨ h ≠ []) →
      ∃ h3, Part1.knnSearch q t depth K h = some h3 ∧ h.length ≤ h3.length ∧
        (h3.length : Int) ≤ max K h.length := by
  intro t
  induction t with
  | nil =>
    intro depth h _
    exact ⟨h, rfl, le_refl _, le_max_right _ _⟩
  | node e i l r ihl ihr =>
    intro depth h hok
    simp only [Part1.knnSearch]
    have hnear : ∃ h1, (if decide (q < e) = true
        then Part1.knnSearch q l (depth + 1) K h
        else Part1.knnSearch q r (depth + 1) K h) = some h1 ∧ h.length ≤ h1.length ∧
        (h1.length : Int) ≤ max K h.length := by
      split
      · exact ihl (depth + 1) h hok
      · exact ihr (depth + 1) h hok
    obtain ⟨h1, hn, hl1, hb1⟩ := hnear
    have hok1 := defined_mono K h h1 hok hl1
    rw [hn]
    simp only [Option.some_bind]
    obtain ⟨h2, hu, hl2, hu2⟩ := heapUpdate_defined K h1 (Part1.distance q e) i hok1
    have hok2 := defined_mono K h1 h2 hok1 hl2
    rw [hu]
    simp only [Option.some_bind]
    obtain ⟨go, hgo⟩ := exploreFar_defined K h2 (Part1.distance q e) hok2
    rw [hgo]
    simp only [Option.some_bind]
    have hb2 : (h2.length : Int) ≤ max K h.length := le_trans hu2 (max_le (le_max_left _ _) hb1)
    cases go with
    | false =>
      exact ⟨h2, by simp, le_trans hl1 hl2, hb2⟩
    | true =>
      simp only [if_true]
      have hfar : ∃ h3, (if (decide (q < e) || (l.isNull && r.isNull)) = true
          then Part1.knnSearch q r (depth + 1) K h2
          else Part1.knnSearch q l (depth + 1) K h2) = some h3 ∧ h2.length ≤ h3.length ∧
          (h3.length : Int) ≤ max K h2.length := by
        split
        · exact ihr (depth + 1) h2 hok2
        · exact ihl (depth + 1) h2 hok2
      obtain ⟨h3, hf, hl3, hu3⟩ := hfar
      exact ⟨h3, hf, le_trans (le_trans hl1 hl2) hl3,
        le_trans hu3 (max_le (le_max_left _ _) hb2)⟩

/-- The node-update step reads `top` of an empty accumulator exactly when it holds no pair
and `K` is not positive. -/
theorem heapUpdate_eq_none_iff (K : Int) (h : MaxHeap F) (d : F) (idx : Int) :
    heapUpdate K h d idx = none ↔ ¬ (h.length : Int) < K ∧ h = [] := by
  unfold heapUpdate
  by_cases hlt : (h.length : Int) < K
  · simp [hlt]
  · rw [if_neg hlt]
    cases h with
    | nil => simpa [MaxHeap.top] using hlt
    | cons x xs =>
      simp only [MaxHeap.top]
      split <;> simp_all

/-- The far-side test reads `top` of an empty accumulator exactly when it holds no pair and
`K` is not positive. -/
theorem exploreFar_eq_none_iff (K : Int) (h : MaxHeap F) (g : F) :
    exploreFar K h g = none ↔ ¬ (h.length : Int) < K ∧ h = [] := by
  unfold exploreFar
  by_cases hlt : (h.length : Int) < K
  · simp [hlt]
  · rw [if_neg hlt]
    cases h with
    | nil => simpa [MaxHeap.top] using hlt
    | cons x xs => simp [MaxHeap.top]

/-! ## Claims on the accumulator and on degenerate inputs -/

/-- C12: `buildKD` applied to the empty list returns the empty tree at every depth (both
builders), `knnSearch` on the empty tree returns at once with the accumulator unchanged for
every `K` and every query (both variants), and so a search of the tree built from no item,
started with an empty accumulator, ends with an empty accumulator and no error. -/
theorem C12_empty_input (S2 : StdSort (E × Int)) (ops : Part2.Embedding_T E F)
    (S1 : StdSort (F × Int)) (depth : Nat) (q2 : E) (q1 : F) (K : Int) (heap : MaxHeap F) :
    Part2.buildKD S2 ops [] depth = Node.nil ∧
    Part1.buildKD S1 [] depth = Node.nil ∧
    Part2.knnSearch ops q2 Node.nil depth K heap = some heap ∧
    Part1.knnSearch q1 Node.nil depth K heap = some heap ∧
    Part2.knnSearch ops q2 (Part2.buildKD S2 ops [] 0) 0 K [] = some [] ∧
    Part1.knnSearch q1 (Part1.buildKD S1 [] 0) 0 K [] = some [] :=
  ⟨rfl, rfl, rfl, rfl, rfl, rfl⟩

/-- C16: for every `K ≥ 1`, every tree, every query, every depth and every starting
accumulator of at most `K` pairs, `knnSearch` (both variants) returns with an accumulator of
at most `K` pairs and at least as many as before; as this holds for every tree and
accumulator it holds for every recursive call. The node update inserts the pair while fewer
than `K` are held, and otherwise replaces the pair `top` returns, one of greatest distance,
only when the new distance is strictly smaller. -/
theorem C16_accumulator_bounded (ops : Part2.Embedding_T E F) (q2 : E) (t2 : Node E)
    (q1 : F) (t1 : Node F) (depth : Nat) (K : Int) (heap : MaxHeap F)
    (hK : 1 ≤ K) (hsize : (heap.length : Int) ≤ K) :
    (∃ h2, Part2.knnSearch ops q2 t2 depth K heap = some h2 ∧ heap.length ≤ h2.length ∧
      (h2.length : Int) ≤ K) ∧
    (∃ h1, Part1.knnSearch q1 t1 depth K heap = some h1 ∧ heap.length ≤ h1.length ∧
      (h1.length : Int) ≤ K) ∧
    (∀ d idx, (heap.length : Int) < K → heapUpdate K heap d idx = some ((d, idx) :: heap)) ∧
    (∀ d idx, ¬ (heap.length : Int) < K →
      ∃ t, MaxHeap.top heap = some t ∧ t ∈ heap ∧ (∀ y ∈ heap, y.1 ≤ t.1) ∧
        (t :: MaxHeap.pop heap).Perm heap ∧
        heapUpdate K heap d idx =
          some (if d < t.1 then (d, idx) :: MaxHeap.pop heap else heap)) := by
  refine ⟨?_, ?_, ?_, ?_⟩
  · obtain ⟨h2, e, hl, hu⟩ := Part2.knnSearch_defined_generic ops q2 K t2 depth heap (Or.inl hK)
    exact ⟨h2, e, hl, le_trans hu (max_le (le_refl _) hsize)⟩
  · obtain ⟨h1, e, hl, hu⟩ := Part1.knnSearch_defined_scalar q1 K t1 depth heap (Or.inl hK)
    exact ⟨h1, e, hl, le_trans hu (max_le (le_refl _) hsize)⟩
  · intro d idx hlt
    simp [heapUpdate, hlt, MaxHeap.push]
  · intro d idx hlt
    have hne : heap ≠ [] := by
      intro hc
      subst hc
      simp at hlt
      omega
    obtain ⟨t, ht, hmem, hmax⟩ := MaxHeap.top_spec heap hne
    refine ⟨t, ht, hmem, hmax, ?_, ?_⟩
    · simp only [MaxHeap.pop, ht]
      exact cons_erase_perm hmem
    · simp only [heapUpdate, if_neg hlt, ht, MaxHeap.push]
      split <;> rfl

/-- C16 with `K = 2` on the tree of the items `10, 20, 30, 40, 50`, query 25, started with the
accumulator `[(7, 9)]`: the scalar search ends with two pairs. -/
theorem C16_accumulator_bounded_witness :
    ((1 : Int) ≤ 2 ∧ ((([((7 : ℚ), (9 : Int))] : MaxHeap ℚ).length : Nat) : Int) ≤ 2) ∧
    ((∃ h2, Part2.knnSearch Part2.scalarEmbedding (25 : ℚ)
        (Part2.buildKD (insertionStdSort _) Part2.scalarEmbedding
          [(10, 0), (20, 1), (30, 2), (40, 3), (50, 4)] 0) 0 2 [(7, 9)] = some h2 ∧
        ([((7 : ℚ), (9 : Int))] : MaxHeap ℚ).length ≤ h2.length ∧ (h2.length : Int) ≤ 2) ∧
      (∃ h1, Part1.knnSearch (25 : ℚ)
        (Part1.buildKD (insertionStdSort _) [(10, 0), (20, 1), (30, 2), (40, 3), (50, 4)] 0)
          0 2 [(7, 9)] = some h1 ∧
        ([((7 : ℚ), (9 : Int))] : MaxHeap ℚ).length ≤ h1.length ∧ (h1.length : Int) ≤ 2) ∧
      (∀ d idx, ((([((7 : ℚ), (9 : Int))] : MaxHeap ℚ).length : Nat) : Int) < 2 →
        heapUpdate 2 [((7 : ℚ), (9 : Int))] d idx = some ((d, idx) :: [(7, 9)])) ∧
      (∀ d idx, ¬ ((([((7 : ℚ), (9 : Int))] : MaxHeap ℚ).length : Nat) : Int) < 2 →
        ∃ t, MaxHeap.top [((7 : ℚ), (9 : Int))] = some t ∧ t ∈ [((7 : ℚ), (9 : Int))] ∧
          (∀ y ∈ [((7 : ℚ), (9 : Int))], y.1 ≤ t.1) ∧
          (t :: MaxHeap.pop [((7 : ℚ), (9 : Int))]).Perm [(7, 9)] ∧
          heapUpdate 2 [((7 : ℚ), (9 : Int))] d idx =
            some (if d < t.1 then (d, idx) :: MaxHeap.pop [((7 : ℚ), (9 : Int))]
              else [(7, 9)]))) ∧
    Part1.knnSearch (25 : ℚ)
        (Part1.buildKD (insertionStdSort _) [(10, 0), (20, 1), (30, 2), (40, 3), (50, 4)] 0)
          0 2 [(7, 9)] = some [(5, 2), (5, 1)] :=
  ⟨⟨by decide, by decide⟩,
    C16_accumulator_bounded Part2.scalarEmbedding 25 _ 25 _ 0 2 [(7, 9)] (by decide)
      (by decide),
    by decide!⟩

/-- C19: for every `K ≥ 1`, every tree, query, depth and starting accumulator, `knnSearch`
(both variants) never evaluates `heap.top()` on an empty accumulator: the search returns,
and the node update and the far-side test are defined on every accumulator; they are
undefined exactly when `top` would be read on an empty accumulator. -/
theorem C19_top_never_read_empty (ops : Part2.Embedding_T E F) (q2 : E) (t2 : Node E)
    (q1 : F) (t1 : Node F) (depth : Nat) (K : Int) (heap : MaxHeap F) (hK : 1 ≤ K) :
    (Part2.knnSearch ops q2 t2 depth K heap).isSome = true ∧
    (Part1.knnSearch q1 t1 depth K heap).isSome = true ∧
    (∀ d idx, (heapUpdate K heap d idx).isSome = true) ∧
    (∀ g, (exploreFar K heap g).isSome = true) ∧
    (∀ (K0 : Int) (h : MaxHeap F) d idx,
      heapUpdate K0 h d idx = none ↔ ¬ (h.length : Int) < K0 ∧ h = []) ∧
    (∀ (K0 : Int) (h : MaxHeap F) g,
      exploreFar K0 h g = none ↔ ¬ (h.length : Int) < K0 ∧ h = []) := by
  refine ⟨?_, ?_, ?_, ?_, heapUpdate_eq_none_iff, exploreFar_eq_none_iff⟩
  · obtain ⟨h2, e, _, _⟩ := Part2.knnSearch_defined_generic ops q2 K t2 depth heap (Or.inl hK)
    rw [e]; rfl
  · obtain ⟨h1, e, _, _⟩ := Part1.knnSearch_defined_scalar q1 K t1 depth heap (Or.inl hK)
    rw [e]; rfl
  · intro d idx
    obtain ⟨h2, e, _, _⟩ := heapUpdate_defined K heap d idx (Or.inl hK)
    rw [e]; rfl
  · intro g
    obtain ⟨go, e⟩ := exploreFar_defined K heap g (Or.inl hK)
    rw [e]; rfl

/-- With `K ≤ 0` and an empty accumulator the generic search reads `top` of the empty queue
at the first node it visits: it is undefined on every non-empty tree. -/
theorem Part2.knnSearch_nonpos_empty_generic (ops : Part2.Embedding_T E F) (q : E) (K : Int)
    (hK : K ≤ 0) (e : E) (i : Int) (l r : Node E) (depth : Nat) :
    Part2.knnSearch ops q (Node.node e i l r) depth K [] = none := by
  have hu : heapUpdate K ([] : MaxHeap F) (ops.distance q e) i = none :=
    (heapUpdate_eq_none_iff K [] _ i).mpr ⟨by simpa using hK, rfl⟩
  simp only [Part2.knnSearch, hu, Option.none_bind]

/-- With `K ≤ 0` and an empty accumulator the scalar search returns at once on the empty tree
and reads `top` of the empty queue on every non-empty tree. -/
theorem Part1.knnSearch_nonpos_empty_scalar (q : F) (K : Int) (hK : K ≤ 0) :
    ∀ (t : Node F) (depth : Nat),
      Part1.knnSearch q t depth K [] = if t.isNull = true then some [] else none := by
  intro t
  induction t with
  | nil => intro _; rfl
  | node e i l r ihl ihr =>
    intro depth
    have hu : heapUpdate K ([] : MaxHeap F) (Part1.distance q e) i = none :=
      (heapUpdate_eq_none_iff K [] _ i).mpr ⟨by simpa using hK, rfl⟩
    have hnear : ∀ c : Node F,
        (Part1.knnSearch q c (depth + 1) K [] = if c.isNull = true then some [] else none) →
        ((Part1.knnSearch q c (depth + 1) K []).bind fun heap1 =>
          (heapUpdate K heap1 (Part1.distance q e) i).bind fun heap2 =>
          (exploreFar K heap2 (Part1.distance q e)).bind fun go =>
          if go = true then
            if (decide (q < e) || (l.isNull && r.isNull)) = true
              then Part1.knnSearch q r (depth + 1) K heap2
              else Part1.knnSearch q l (depth + 1) K heap2
          else some heap2) = none := by
      intro c hc
      rw [hc]
      cases c.isNull <;> simp [hu]
    simp only [Part1.knnSearch, Node.isNull, Bool.false_eq_true, if_false]
    by_cases hq : q < e
    · simpa [hq] using hnear l (ihl (depth + 1))
    · simpa [hq] using hnear r (ihr (depth + 1))

/-- C11 at the failing input: with `K = 0` (and with `K = -1`), the one-node tree
`(5, idx 3)`, the query 5 and an empty accumulator, both variants of `knnSearch` evaluate the
node, find `size < K` false and read `top` of the empty queue, which is undefined: no error
is reported and the search is not skipped. Started with the accumulator `[(10, 7)]` instead,
both variants return after replacing the pair `(10, 7)` by `(0, 3)`. -/
theorem C11_invalid_K_reads_empty_top :
    Part2.knnSearch Part2.scalarEmbedding (5 : ℚ) (Node.node 5 3 Node.nil Node.nil) 0 0 [] =
      none ∧
    Part1.knnSearch (5 : ℚ) (Node.node 5 3 Node.nil Node.nil) 0 0 [] = none ∧
    Part2.knnSearch Part2.scalarEmbedding (5 : ℚ) (Node.node 5 3 Node.nil Node.nil) 0 (-1)
      [] = none ∧
    Part1.knnSearch (5 : ℚ) (Node.node 5 3 Node.nil Node.nil) 0 (-1) [] = none ∧
    heapUpdate 0 ([] : MaxHeap ℚ) 0 3 = none ∧
    MaxHeap.top ([] : MaxHeap ℚ) = none ∧
    Part2.knnSearch Part2.scalarEmbedding (5 : ℚ) (Node.node 5 3 Node.nil Node.nil) 0 0
      [(10, 7)] = some [(0, 3)] ∧
    Part1.knnSearch (5 : ℚ) (Node.node 5 3 Node.nil Node.nil) 0 0 [(10, 7)] =
      some [(0, 3)] := by
  decide!

/-! ## Near and far child -/

/-- The scalar search at a node, in terms of its near and far child. -/
theorem Part1.knnSearch_node_scalar (q : F) (e : F) (i : Int) (l r : Node F) (depth : Nat)
    (K : Int) (heap : MaxHeap F) :
    Part1.knnSearch q (Node.node e i l r) depth K heap =
      (Part1.knnSearch q (Part1.nearChild q (Node.node e i l r)) (depth + 1) K heap).bind
        fun heap1 => (heapUpdate K heap1 (Part1.distance q e) i).bind
        fun heap2 => (exploreFar K heap2 (Part1.distance q e)).bind
        fun go => if go = true
          then Part1.knnSearch q (Part1.farChild q (Node.node e i l r)) (depth + 1) K heap2
          else some heap2 := by
  simp only [Part1.knnSearch, Part1.nearChild, Part1.farChild]
  by_cases hc : q < e
  · simp [hc]
  · cases hn : (l.isNull && r.isNull) <;> simp [hc, hn]

/-- The generic search at a node, in terms of its near and far child. -/
theorem Part2.knnSearch_node_generic (ops : Part2.Embedding_T E F) (q : E) (e : E) (i : Int)
    (l r : Node E) (depth : Nat) (K : Int) (heap : MaxHeap F) :
    Part2.knnSearch ops q (Node.node e i l r) depth K heap =
      (heapUpdate K heap (ops.distance q e) i).bind
        fun heap1 => (Part2.knnSearch ops q (Part2.nearChild ops q (Node.node e i l r) depth)
          (depth + 1) K heap1).bind
        fun heap2 => (exploreFar K heap2 (Part2.splitGap ops q e depth)).bind
        fun go => if go = true
          then Part2.knnSearch ops q (Part2.farChild ops q (Node.node e i l r) depth)
            (depth + 1) K heap2
          else some heap2 := by
  simp only [Part2.knnSearch, Part2.nearChild, Part2.farChild, Part2.splitGap]
  by_cases hc : ops.getCoordinate q (Part2.splitAxis ops.Dim depth) <
      ops.getCoordinate e (Part2.splitAxis ops.Dim depth)
  · simp [hc]
  · cases hn : (l.isNull && r.isNull) <;> simp [hc, hn]

/-- A tree for which `isNull` holds is the empty tree. -/
theorem Node.eq_nil_of_isNull (t : Node E) (h : t.isNull = true) : t = Node.nil := by
  cases t with
  | nil => rfl
  | node _ _ _ _ => simp [Node.isNull] at h

/-- The far child of the scalar search is the child that is not the near child. -/
theorem Part1.farChild_other_scalar (q : F) (e : F) (i : Int) (l r : Node F) :
    Part1.farChild q (Node.node e i l r) = if q < e then r else l := by
  simp only [Part1.farChild]
  by_cases hc : q < e
  · simp [hc]
  · cases hn : (l.isNull && r.isNull)
    · simp [hc]
    · simp only [Bool.and_eq_true] at hn
      rw [Node.eq_nil_of_isNull l hn.1, Node.eq_nil_of_isNull r hn.2]
      simp

/-- The far child of the generic search is the child that is not the near child. -/
theorem Part2.farChild_other_generic (ops : Part2.Embedding_T E F) (q : E) (e : E) (i : Int)
    (l r : Node E) (depth : Nat) :
    Part2.farChild ops q (Node.node e i l r) depth =
      if ops.getCoordinate q (Part2.splitAxis ops.Dim depth) <
        ops.getCoordinate e (Part2.splitAxis ops.Dim depth) then r else l := by
  simp only [Part2.farChild]
  by_cases hc : ops.getCoordinate q (Part2.splitAxis ops.Dim depth) <
      ops.getCoordinate e (Part2.splitAxis ops.Dim depth)
  · simp [hc]
  · cases hn : (l.isNull && r.isNull)
    · simp [hc]
    · simp only [Bool.and_eq_true] at hn
      rw [Node.eq_nil_of_isNull l hn.1, Node.eq_nil_of_isNull r hn.2]
      simp

/-- C20: at every node visited by `knnSearch` (both variants), with near the left child when
the query's split coordinate is strictly less than the node's and the right child
otherwise, the far child computed by the pointer test `nearC == node->left` is the other
child of the node, also when one or both children are absent and when both subtrees hold
equal contents; near and far are the two children in some order, and `knnSearch` recurses
into exactly these two. -/
theorem C20_near_far_are_the_two_children (ops : Part2.Embedding_T E F) (q2 : E) (e2 : E)
    (l2 r2 : Node E) (q1 : F) (e1 : F) (l1 r1 : Node F) (i : Int) (depth : Nat) (K : Int)
    (heap : MaxHeap F) :
    (Part1.nearChild q1 (Node.node e1 i l1 r1) = (if q1 < e1 then l1 else r1) ∧
      Part1.farChild q1 (Node.node e1 i l1 r1) = (if q1 < e1 then r1 else l1) ∧
      [Part1.nearChild q1 (Node.node e1 i l1 r1),
        Part1.farChild q1 (Node.node e1 i l1 r1)].Perm [l1, r1] ∧
      Part1.knnSearch q1 (Node.node e1 i l1 r1) depth K heap =
        (Part1.knnSearch q1 (Part1.nearChild q1 (Node.node e1 i l1 r1)) (depth + 1) K
          heap).bind
          fun heap1 => (heapUpdate K heap1 (Part1.distance q1 e1) i).bind
          fun heap2 => (exploreFar K heap2 (Part1.distance q1 e1)).bind
          fun go => if go = true
            then Part1.knnSearch q1 (Part1.farChild q1 (Node.node e1 i l1 r1)) (depth + 1) K
              heap2
            else some heap2) ∧
    (Part2.nearChild ops q2 (Node.node e2 i l2 r2) depth =
        (if ops.getCoordinate q2 (Part2.splitAxis ops.Dim depth) <
          ops.getCoordinate e2 (Part2.splitAxis ops.Dim depth) then l2 else r2) ∧
      Part2.farChild ops q2 (Node.node e2 i l2 r2) depth =
        (if ops.getCoordinate q2 (Part2.splitAxis ops.Dim depth) <
          ops.getCoordinate e2 (Part2.splitAxis ops.Dim depth) then r2 else l2) ∧
      [Part2.nearChild ops q2 (Node.node e2 i l2 r2) depth,
        Part2.farChild ops q2 (Node.node e2 i l2 r2) depth].Perm [l2, r2] ∧
      Part2.knnSearch ops q2 (Node.node e2 i l2 r2) depth K heap =
        (heapUpdate K heap (ops.distance q2 e2) i).bind
          fun heap1 => (Part2.knnSearch ops q2
            (Part2.nearChild ops q2 (Node.node e2 i l2 r2) depth) (depth + 1) K heap1).bind
          fun heap2 => (exploreFar K heap2 (Part2.splitGap ops q2 e2 depth)).bind
          fun go => if go = true
            then Part2.knnSearch ops q2 (Part2.farChild ops q2 (Node.node e2 i l2 r2) depth)
              (depth + 1) K heap2
            else some heap2) := by
  refine ⟨⟨rfl, Part1.farChild_other_scalar q1 e1 i l1 r1, ?_,
    Part1.knnSearch_node_scalar q1 e1 i l1 r1 depth K heap⟩,
    ⟨rfl, Part2.farChild_other_generic ops q2 e2 i l2 r2 depth, ?_,
    Part2.knnSearch_node_generic ops q2 e2 i l2 r2 depth K heap⟩⟩
  · rw [Part1.farChild_other_scalar]
    simp only [Part1.nearChild]
    split
    · exact List.Perm.refl _
    · exact List.Perm.swap _ _ _
  · rw [Part2.farChild_other_generic]
    simp only [Part2.nearChild]
    split
    · exact List.Perm.refl _
    · exact List.Perm.swap _ _ _

/-! ## The pruning bound -/

/-- In a tree with the partition invariant the pruning bound is sound, when the gap on an
axis below the dimension never exceeds the distance. -/
theorem Part2.pruneBound_of_partitioned_generic (ops : Part2.Embedding_T E F) (q : E)
    (hD : 1 ≤ ops.Dim)
    (hgap : ∀ p a, a < ops.Dim →
      abs (ops.getCoordinate q a - ops.getCoordinate p a) ≤ ops.distance q p) :
    ∀ (t : Node E) (depth : Nat), Node.Partitioned ops.getCoordinate ops.Dim t depth →
      Part2.PruneBoundSound ops q t depth := by
  intro t
  induction t with
  | nil => intro _ _; trivial
  | node e i l r ihl ihr =>
    intro depth hpart
    obtain ⟨hleft, hright, hpl, hpr⟩ := hpart
    have hax : Part2.splitAxis ops.Dim depth = depth % ops.Dim := by
      unfold Part2.splitAxis
      rw [if_neg (by omega)]
    have hlt : depth % ops.Dim < ops.Dim := Nat.mod_lt _ (by omega)
    refine ⟨?_, ihl (depth + 1) hpl, ihr (depth + 1) hpr⟩
    intro p hp
    rw [Part2.farChild_other_generic, hax] at hp
    simp only [Part2.splitGap, hax]
    refine le_trans ?_ (hgap p.1 _ hlt)
    by_cases hc : ops.getCoordinate q (depth % ops.Dim) < ops.getCoordinate e (depth % ops.Dim)
    · rw [if_pos hc] at hp
      have h1 := hright p hp
      rw [abs_of_neg (by linarith), abs_of_neg (by linarith)]
      linarith
    · rw [if_neg hc] at hp
      have h1 := hleft p hp
      have h2 := not_lt.mp hc
      rw [abs_of_nonneg (by linarith), abs_of_nonneg (by linarith)]
      linarith

/-- In exact arithmetic the pruning bound is sound: for every `D ≥ 1`, every tree returned by
the generic `buildKD(items, 0)`, every query `q` and every node, at depth `t` say, the gap
`|q[a] - node[a]|` on the axis `a = t mod D` is at most `distance(q, p)` for every item `p`
of the far child of that node. `sqrt` is any function that is monotone on non-negative
numbers with `sqrt (x * x) = x` for `x ≥ 0`. -/
theorem pruning_bound_exact_arithmetic (S : StdSort (List F × Int)) (sqrt : F → F) (D : Nat)
    (items : List (List F × Int)) (q : List F)
    (hmono : ∀ x y, 0 ≤ x → x ≤ y → sqrt x ≤ sqrt y)
    (hsq : ∀ x, 0 ≤ x → sqrt (x * x) = x)
    (hD : 1 ≤ D) (_hlen : ∀ it ∈ items, it.1.length = D) (_hq : q.length = D) :
    Part2.PruneBoundSound (Part2.vectorEmbedding sqrt D) q
      (Part2.buildKD S (Part2.vectorEmbedding sqrt D) items 0) 0 ∧
    (∀ t e, Part2.splitGap (Part2.vectorEmbedding sqrt D) q e t =
      abs (q.getD (t % D) 0 - e.getD (t % D) 0)) := by
  constructor
  · exact Part2.pruneBound_of_partitioned_generic (Part2.vectorEmbedding sqrt D) q hD
      (fun p a ha => Part2.vector_gap_le_distance_generic sqrt hmono hsq D q p a ha) _ 0
      (Part2.buildKDAux_partitioned_generic S (Part2.vectorEmbedding sqrt D) hD _ items 0
        (le_refl _))
  · intro t e
    have hax : Part2.splitAxis D t = t % D := by
      unfold Part2.splitAxis
      rw [if_neg (by omega)]
    simp only [Part2.splitGap, Part2.vectorEmbedding, hax]

/-- The pruning bound in exact arithmetic over the reals with `Real.sqrt`, on the points
`(0,0)`, `(1,1)`, `(5,5)` with `D = 2` and the query `(0.5, 0.5)`. -/
theorem pruning_bound_exact_arithmetic_real :
    ((∀ x y : ℝ, 0 ≤ x → x ≤ y → Real.sqrt x ≤ Real.sqrt y) ∧
      (∀ x : ℝ, 0 ≤ x → Real.sqrt (x * x) = x) ∧ 1 ≤ 2 ∧
      (∀ it ∈ ([([0, 0], 0), ([1, 1], 1), ([5, 5], 2)] : List (List ℝ × Int)),
        it.1.length = 2) ∧
      ([1 / 2, 1 / 2] : List ℝ).length = 2) ∧
    (Part2.PruneBoundSound (Part2.vectorEmbedding Real.sqrt 2) [1 / 2, 1 / 2]
        (Part2.buildKD (insertionStdSort _) (Part2.vectorEmbedding Real.sqrt 2)
          [([0, 0], 0), ([1, 1], 1), ([5, 5], 2)] 0) 0 ∧
      (∀ t e, Part2.splitGap (Part2.vectorEmbedding Real.sqrt 2) [1 / 2, 1 / 2] e t =
        abs (([1 / 2, 1 / 2] : List ℝ).getD (t % 2) 0 - e.getD (t % 2) 0))) :=
  ⟨⟨fun _ _ _ h => Real.sqrt_le_sqrt h, fun _ h => Real.sqrt_mul_self h, by decide,
      by simp, by simp⟩,
    pruning_bound_exact_arithmetic (insertionStdSort _) Real.sqrt 2 _ _
      (fun _ _ _ h => Real.sqrt_le_sqrt h) (fun _ h => Real.sqrt_mul_self h) (by decide)
      (by simp) (by simp)⟩

/-! ## In-order traversal of the scalar tree -/

/-- The in-order traversal of the scalar tree is the one ordered arrangement of the items. -/
theorem Part1.buildKDAux_toList_sorted_scalar (S : StdSort (F × Int))
    (fuel : Nat) (items : List (F × Int)) (depth : Nat) (h : items.length ≤ fuel)
    (srt : List (F × Int)) (hperm : srt.Perm items)
    (hsorted : srt.Pairwise (fun a b => Part1.itemLess b a = false)) :
    (Part1.buildKDAux S fuel items depth).toList = srt := by
  have hanti : IsAntisymm (F × Int) (fun a b => Part1.itemLess b a = false) :=
    ⟨fun a b hab hba => Part1.itemLess_antisymm_scalar a b hab hba⟩
  have key := Part1.buildKDAux_induction_scalar S
    (fun items _ t => ∀ srt : List (F × Int), srt.Perm items →
      srt.Pairwise (fun a b => Part1.itemLess b a = false) → t.toList = srt)
    (fun _ srt hp _ => (List.Perm.eq_nil hp).symm) ?_ fuel items depth h
  · exact key srt hperm hsorted
  intro items depth sorted m l r _ hp hs hm hl hr srt hps hss
  have hleft := hl _ (List.Perm.refl _) (hs.sublist (List.take_sublist _ _))
  have hright := hr _ (List.Perm.refl _) (hs.sublist (List.drop_sublist _ _))
  simp only [Node.toList, hleft, hright, Prod.mk.eta]
  rw [eq_split_at sorted _ m hm]
  exact List.eq_of_perm_of_sorted (hp.trans hps.symm) hs hss

/-- The list ordered by embedding and then idx is an ordered arrangement of the items for
the comparator of the scalar builder. -/
theorem sortedByEmbeddingThenIdx_spec (items : List (F × Int)) :
    (sortedByEmbeddingThenIdx items).Perm items ∧
    (sortedByEmbeddingThenIdx items).Pairwise (fun a b => Part1.itemLess b a = false) := by
  have hiff : ∀ a b : F × Int,
      (a.1 < b.1 ∨ (a.1 = b.1 ∧ a.2 ≤ b.2)) ↔ Part1.itemLess b a = false := by
    intro a b
    rw [Part1.itemLess_eq_false_scalar]
    constructor
    · rintro (h | ⟨h1, h2⟩)
      · exact Or.inl h
      · exact Or.inr ⟨h1.symm, h2⟩
    · rintro (h | ⟨h1, h2⟩)
      · exact Or.inl h
      · exact Or.inr ⟨h1.symm, h2⟩
  have hsw : StrictWeak (Part1.itemLess : F × Int → F × Int → Bool) :=
    Part1.strictWeak_itemLess_scalar
  have htot : IsTotal (F × Int) (fun a b => a.1 < b.1 ∨ (a.1 = b.1 ∧ a.2 ≤ b.2)) :=
    ⟨fun a b => by
      rw [hiff a b, hiff b a]
      cases hab : Part1.itemLess a b
      · exact Or.inr rfl
      · cases hba : Part1.itemLess b a
        · exact Or.inl rfl
        · have := hsw.2.1 a b a hab hba
          rw [hsw.1 a] at this
          exact absurd this (by decide)⟩
  have htr : IsTrans (F × Int) (fun a b => a.1 < b.1 ∨ (a.1 = b.1 ∧ a.2 ≤ b.2)) :=
    ⟨fun a b c hab hbc => by
      rw [hiff] at hab hbc ⊢
      exact hsw.2.2 c b a hbc hab⟩
  refine ⟨List.perm_insertionSort _ _, ?_⟩
  have hs := List.sorted_insertionSort
    (fun a b : F × Int => a.1 < b.1 ∨ (a.1 = b.1 ∧ a.2 ≤ b.2)) items
  exact List.Pairwise.imp (fun {a b} hab => (hiff a b).mp hab) hs

/-- C18: for every list of (scalar, idx) items, every conforming `std::sort` and every
starting depth, the in-order traversal (left subtree, node, right subtree) of the tree
returned by the scalar `buildKD` is the input list ordered ascending by embedding and then
by idx; in particular the tree holds every input item exactly once. -/
theorem C18_inorder_is_sorted_input (S : StdSort (F × Int)) (items : List (F × Int))
    (depth : Nat) :
    (Part1.buildKD S items depth).toList = sortedByEmbeddingThenIdx items ∧
    (Part1.buildKD S items depth).toList.Perm items ∧
    (Part1.buildKD S items depth).toList.Pairwise
      (fun a b => a.1 < b.1 ∨ (a.1 = b.1 ∧ a.2 ≤ b.2)) ∧
    (Part1.buildKD S items depth).size = items.length := by
  have hspec := sortedByEmbeddingThenIdx_spec items
  have heq : (Part1.buildKD S items depth).toList = sortedByEmbeddingThenIdx items :=
    Part1.buildKDAux_toList_sorted_scalar S _ items depth (le_refl _) _ hspec.1 hspec.2
  refine ⟨heq, Part1.buildKDAux_toList_perm_scalar S _ items depth (le_refl _), ?_,
    Part1.buildKDAux_size_scalar S _ items depth (le_refl _)⟩
  rw [heq]
  refine List.Pairwise.imp ?_ hspec.2
  intro a b hab
  rw [Part1.itemLess_eq_false_scalar] at hab
  rcases hab with h | ⟨h1, h2⟩
  · exact Or.inl h
  · exact Or.inr ⟨h1.symm, h2⟩

/-! ## The distance is a metric -/

/-- The loop of the vector distance computes the sum of the squared differences of the
first `D` coordinates. -/
theorem Part2.sumSquares_eq_sum_generic (D : Nat) (a b : List F) :
    Part2.sumSquares D a b =
      Finset.sum (Finset.range D) (fun i => (a.getD i 0 - b.getD i 0) ^ 2) := by
  induction D with
  | zero => simp [Part2.sumSquares]
  | succ n ih =>
    have hstep : Part2.sumSquares (n + 1) a b =
        Part2.sumSquares n a b + (a.getD n 0 - b.getD n 0) * (a.getD n 0 - b.getD n 0) := by
      simp only [Part2.sumSquares, List.range_succ, List.foldl_append, List.foldl_cons,
        List.foldl_nil]
    rw [hstep, ih, Finset.sum_range_succ, pow_two]

theorem Part2.sumSquares_nonneg_generic (D : Nat) (a b : List F) :
    0 ≤ Part2.sumSquares D a b := by
  rw [Part2.sumSquares_eq_sum_generic]
  exact Finset.sum_nonneg (fun i _ => sq_nonneg _)

/-- The sum of squares vanishes exactly when the first `D` coordinates agree. -/
theorem Part2.sumSquares_eq_zero_generic (D : Nat) (a b : List F) :
    Part2.sumSquares D a b = 0 ↔ ∀ i, i < D → a.getD i 0 = b.getD i 0 := by
  rw [Part2.sumSquares_eq_sum_generic,
    Finset.sum_eq_zero_iff_of_nonneg (fun i _ => sq_nonneg _)]
  constructor
  · intro h i hi
    have := h i (Finset.mem_range.mpr hi)
    exact sub_eq_zero.mp (pow_eq_zero_iff (by norm_num) |>.mp this)
  · intro h i hi
    rw [h i (Finset.mem_range.mp hi), sub_self]
    norm_num

/-- Two lists of length `D` are equal when their first `D` coordinates agree. -/
theorem eq_of_getD_eq (D : Nat) (a b : List F) (ha : a.length = D) (hb : b.length = D)
    (h : ∀ i, i < D → a.getD i 0 = b.getD i 0) : a = b := by
  apply List.ext_getElem (by rw [ha, hb])
  intro i h1 h2
  have := h i (by omega)
  rwa [List.getD_eq_getElem a 0 h1, List.getD_eq_getElem b 0 h2] at this

/-- Lists with the same first `D` elements have the same coordinates below `D`. -/
theorem getD_eq_of_take_eq (D : Nat) (a a' : List F) (h : a.take D = a'.take D) (i : Nat)
    (hi : i < D) : a.getD i 0 = a'.getD i 0 := by
  rw [List.getD_eq_getElem?_getD, List.getD_eq_getElem?_getD,
    ← List.getElem?_take_of_lt hi, h, List.getElem?_take_of_lt hi]

/-- What the two assumptions on `sqrt` give: it is non-negative on non-negative numbers and
vanishes there only at 0. -/
theorem sqrt_facts (sqrt : F → F) (hmono : ∀ x y, 0 ≤ x → x ≤ y → sqrt x ≤ sqrt y)
    (hsq : ∀ x, 0 ≤ x → sqrt (x * x) = x) (x : F) (hx : 0 ≤ x) :
    0 ≤ sqrt x ∧ (sqrt x = 0 ↔ x = 0) := by
  have h0 : sqrt 0 = 0 := by
    have := hsq 0 (le_refl _)
    rwa [mul_zero] at this
  refine ⟨?_, ?_⟩
  · have := hmono 0 x (le_refl _) hx
    rwa [h0] at this
  · constructor
    · intro hz
      by_contra hne
      have hpos : 0 < x := lt_of_le_of_ne hx (Ne.symm hne)
      have hy : 0 < min x 1 := lt_min hpos one_pos
      have hyy : min x 1 * min x 1 ≤ x := by
        calc min x 1 * min x 1 ≤ min x 1 * 1 :=
              mul_le_mul_of_nonneg_left (min_le_right _ _) (le_of_lt hy)
          _ = min x 1 := mul_one _
          _ ≤ x := min_le_left _ _
      have h1 := hmono _ _ (mul_self_nonneg (min x 1)) hyy
      rw [hsq _ (le_of_lt hy), hz] at h1
      exact absurd hy (not_lt.mpr h1)
    · intro hz
      rw [hz, h0]

/-- C13: the scalar distance is `|a - b|` and the vector distance with dimension `D` is
`sqrt` of the sum over `i < D` of `(a[i] - b[i])^2`, which reads only the first `D`
coordinates; in both cases, for all embeddings `a`, `b` (of length `D` in the vector case),
the distance is non-negative, symmetric, and zero exactly when `a = b`. Arithmetic is that
of an ordered field, with `sqrt` monotone on non-negative numbers and `sqrt (x * x) = x`
for `x ≥ 0`. -/
theorem C13_distance_is_metric (sqrt : F → F) (D : Nat)
    (hmono : ∀ x y, 0 ≤ x → x ≤ y → sqrt x ≤ sqrt y)
    (hsq : ∀ x, 0 ≤ x → sqrt (x * x) = x) :
    (∀ a b : F, Part1.distance a b = abs (a - b) ∧
      (Part2.scalarEmbedding : Part2.Embedding_T F F).distance a b = abs (a - b) ∧
      0 ≤ Part1.distance a b ∧ Part1.distance a b = Part1.distance b a ∧
      (Part1.distance a b = 0 ↔ a = b)) ∧
    (∀ a b : List F, (Part2.vectorEmbedding sqrt D).distance a b =
      sqrt (Finset.sum (Finset.range D) (fun i => (a.getD i 0 - b.getD i 0) ^ 2))) ∧
    (∀ a b a' b' : List F, a.take D = a'.take D → b.take D = b'.take D →
      (Part2.vectorEmbedding sqrt D).distance a b =
        (Part2.vectorEmbedding sqrt D).distance a' b') ∧
    (∀ a b : List F, a.length = D → b.length = D →
      0 ≤ (Part2.vectorEmbedding sqrt D).distance a b ∧
      (Part2.vectorEmbedding sqrt D).distance a b =
        (Part2.vectorEmbedding sqrt D).distance b a ∧
      ((Part2.vectorEmbedding sqrt D).distance a b = 0 ↔ a = b)) := by
  refine ⟨?_, ?_, ?_, ?_⟩
  · intro a b
    refine ⟨rfl, rfl, abs_nonneg _, abs_sub_comm a b, ?_⟩
    simp only [Part1.distance, abs_eq_zero, sub_eq_zero]
  · intro a b
    simp only [Part2.vectorEmbedding, Part2.sumSquares_eq_sum_generic]
  · intro a b a' b' ha hb
    simp only [Part2.vectorEmbedding, Part2.sumSquares_eq_sum_generic]
    congr 1
    apply Finset.sum_congr rfl
    intro i hi
    rw [getD_eq_of_take_eq D a a' ha i (Finset.mem_range.mp hi),
      getD_eq_of_take_eq D b b' hb i (Finset.mem_range.mp hi)]
  · intro a b ha hb
    have hnn := Part2.sumSquares_nonneg_generic D a b
    obtain ⟨h1, h2⟩ := sqrt_facts sqrt hmono hsq _ hnn
    refine ⟨h1, ?_, ?_⟩
    · simp only [Part2.vectorEmbedding, Part2.sumSquares_eq_sum_generic]
      congr 1
      apply Finset.sum_congr rfl
      intro i _
      ring
    · simp only [Part2.vectorEmbedding]
      rw [h2, Part2.sumSquares_eq_zero_generic]
      constructor
      · intro h
        exact eq_of_getD_eq D a b ha hb h
      · intro h i _
        rw [h]

/-- C13 over the reals with `Real.sqrt` and `D = 2`. -/
theorem C13_distance_is_metric_witness :
    ((∀ x y : ℝ, 0 ≤ x → x ≤ y → Real.sqrt x ≤ Real.sqrt y) ∧
      (∀ x : ℝ, 0 ≤ x → Real.sqrt (x * x) = x)) ∧
    ((∀ a b : ℝ, Part1.distance a b = abs (a - b) ∧
        (Part2.scalarEmbedding : Part2.Embedding_T ℝ ℝ).distance a b = abs (a - b) ∧
        0 ≤ Part1.distance a b ∧ Part1.distance a b = Part1.distance b a ∧
        (Part1.distance a b = 0 ↔ a = b)) ∧
      (∀ a b : List ℝ, (Part2.vectorEmbedding Real.sqrt 2).distance a b =
        Real.sqrt (Finset.sum (Finset.range 2) (fun i => (a.getD i 0 - b.getD i 0) ^ 2))) ∧
      (∀ a b a' b' : List ℝ, a.take 2 = a'.take 2 → b.take 2 = b'.take 2 →
        (Part2.vectorEmbedding Real.sqrt 2).distance a b =
          (Part2.vectorEmbedding Real.sqrt 2).distance a' b') ∧
      (∀ a b : List ℝ, a.length = 2 → b.length = 2 →
        0 ≤ (Part2.vectorEmbedding Real.sqrt 2).distance a b ∧
        (Part2.vectorEmbedding Real.sqrt 2).distance a b =
          (Part2.vectorEmbedding Real.sqrt 2).distance b a ∧
        ((Part2.vectorEmbedding Real.sqrt 2).distance a b = 0 ↔ a = b))) :=
  ⟨⟨fun _ _ _ h => Real.sqrt_le_sqrt h, fun _ h => Real.sqrt_mul_self h⟩,
    C13_distance_is_metric Real.sqrt 2 (fun _ _ _ h => Real.sqrt_le_sqrt h)
      (fun _ h => Real.sqrt_mul_self h)⟩

/-- The spec scenario with the reference procedure: the search for `q = (0.5, 0.5)` with
`K = 1` ends with the single pair `(sqrt 0.5, id0)`. -/
theorem scenario_search_ref_real :
    knnSearchRef (Part2.vectorEmbedding Real.sqrt 2) [1 / 2, 1 / 2]
      (Node.node [1, 1] 1 (Node.node [0, 0] 0 Node.nil Node.nil)
      (Node.node [5, 5] 2 Node.nil Node.nil)) 0 1 [] = some [(Real.sqrt (1 / 2), 0)] := by
  have hd1 : (Part2.vectorEmbedding Real.sqrt 2).distance [1 / 2, 1 / 2] [(1 : ℝ), 1] =
      Real.sqrt (1 / 2) := by
    simp only [Part2.vectorEmbedding]
    congr 1
    simp [Part2.sumSquares, List.range, List.range.loop]; norm_num
  have hd0 : (Part2.vectorEmbedding Real.sqrt 2).distance [1 / 2, 1 / 2] [(0 : ℝ), 0] =
      Real.sqrt (1 / 2) := by
    simp only [Part2.vectorEmbedding]
    congr 1
    simp [Part2.sumSquares, List.range, List.range.loop]; norm_num
  have hd5 : (Part2.vectorEmbedding Real.sqrt 2).distance [1 / 2, 1 / 2] [(5 : ℝ), 5] =
      Real.sqrt (81 / 2) := by
    simp only [Part2.vectorEmbedding]
    congr 1
    simp [Part2.sumSquares, List.range, List.range.loop]; norm_num
  have s1 : (1 / 2 : ℝ) < Real.sqrt (1 / 2) := by
    rw [Real.lt_sqrt (by norm_num)]; norm_num
  have s2 : ¬ Real.sqrt (81 / 2) < Real.sqrt (1 / 2) := by
    rw [not_lt]; exact Real.sqrt_le_sqrt (by norm_num)
  have hc : ∀ (v : List ℝ) (a : Nat),
      (Part2.vectorEmbedding Real.sqrt 2).getCoordinate v a = v.getD a 0 := fun _ _ => rfl
  have hdim : (Part2.vectorEmbedding Real.sqrt 2).Dim = 2 := rfl
  simp only [knnSearchRef, hd1, hd0, hd5, hc, hdim]
  generalize Real.sqrt (1 / 2) = r at s1 s2 ⊢
  generalize Real.sqrt (81 / 2) = r5 at s2 ⊢
  have a1 : |(1 / 2 : ℝ) - 1| = 1 / 2 := by rw [abs_of_neg (by norm_num)]; norm_num
  have a0 : |(1 / 2 : ℝ) - 0| = 1 / 2 := by rw [abs_of_pos (by norm_num)]; norm_num
  have c1 : (1 / 2 : ℝ) < 1 := by norm_num
  have c0 : ¬ (1 / 2 : ℝ) < 0 := by norm_num
  have c5 : (1 / 2 : ℝ) < 5 := by norm_num
  simp only [heapUpdate, exploreFar, MaxHeap.top, MaxHeap.push, MaxHeap.pop,
    Node.isNull, List.getD_cons_zero, List.getD_cons_succ, Nat.zero_mod, Nat.reduceMod,
    Nat.reduceAdd, List.length_nil, List.length_cons, Nat.cast_zero, Nat.cast_one,
    Int.reduceLT, if_true, if_false, Option.some_bind, List.foldl_nil, lt_irrefl, s1, s2, a1,
    a0, c1, c0, c5, ite_self, Bool.or_true, decide_True, decide_False, Bool.true_or,
    Bool.false_or, Bool.and_self, Bool.or_self, zero_add, Nat.cast_ofNat,
    OfNat.ofNat_ne_zero, Nat.succ_ne_zero, Nat.reduceEqDiff, ite_true, ite_false, one_ne_zero,
    two_ne_zero, Bool.false_eq_true]

/-- The reference procedure, on a tree with the partition invariant, ends with `K` nearest
of the candidates. -/
theorem knnSearchRef_kbest (ops : Part2.Embedding_T E F) (q : E) (K : Int)
    (hK : 1 ≤ K) (hD : 1 ≤ ops.Dim)
    (hgap : ∀ p a, a < ops.Dim →
      abs (ops.getCoordinate q a - ops.getCoordinate p a) ≤ ops.distance q p) :
    ∀ (t : Node E) (depth : Nat) (h : MaxHeap F) (A : List (PQItem F)),
      Node.Partitioned ops.getCoordinate ops.Dim t depth → KBest K h A →
      ∃ h3, knnSearchRef ops q t depth K h = some h3 ∧
        KBest K h3 (candidates ops.distance q t.toList ++ A) := by
  intro t
  induction t with
  | nil =>
    intro depth h A _ hk
    exact ⟨h, rfl, by simpa [candidates, Node.toList] using hk⟩
  | node e i l r ihl ihr =>
    intro depth h A hpart hk
    obtain ⟨hleft, hright, hpl, hpr⟩ := hpart
    have hne : ¬ ops.Dim = 0 := by omega
    have hlt : depth % ops.Dim < ops.Dim := Nat.mod_lt _ (by omega)
    simp only [knnSearchRef, if_neg hne]
    by_cases hc : ops.getCoordinate q (depth % ops.Dim) < ops.getCoordinate e (depth % ops.Dim)
    · obtain ⟨h1, hn, hk1⟩ := ihl (depth + 1) h _ hpl hk
      obtain ⟨h2, hu, hk2⟩ := heapUpdate_kbest K hK h1 _ (ops.distance q e) i hk1
      simp only [hc, if_true, hn, hu, Option.some_bind]
      obtain ⟨h3, hf, hk3⟩ := exploreFar_kbest K hK h2 _
        (candidates ops.distance q r.toList)
        (abs (ops.getCoordinate q (depth % ops.Dim) - ops.getCoordinate e (depth % ops.Dim)))
        (knnSearchRef ops q r (depth + 1) K) hk2
        (by
          intro y hy
          obtain ⟨x, hx, rfl⟩ := List.mem_map.mp hy
          refine le_trans ?_ (hgap x.1 _ hlt)
          have h1 := hright x hx
          rw [abs_of_neg (by linarith), abs_of_neg (by linarith)]
          linarith)
        (fun h0 hk0 => ihr (depth + 1) h0 _ hpr hk0)
      refine ⟨h3, hf, hk3.of_perm ?_⟩
      refine List.Perm.trans ?_ (candidates_node _ _ _ _ _ _ _)
      exact List.Perm.append_left _ List.perm_middle.symm
    · obtain ⟨h1, hn, hk1⟩ := ihr (depth + 1) h _ hpr hk
      obtain ⟨h2, hu, hk2⟩ := heapUpdate_kbest K hK h1 _ (ops.distance q e) i hk1
      simp only [hc, if_false, hn, hu, Option.some_bind]
      obtain ⟨h3, hf, hk3⟩ := exploreFar_kbest K hK h2 _
        (candidates ops.distance q l.toList)
        (abs (ops.getCoordinate q (depth % ops.Dim) - ops.getCoordinate e (depth % ops.Dim)))
        (knnSearchRef ops q l (depth + 1) K) hk2
        (by
          intro y hy
          obtain ⟨x, hx, rfl⟩ := List.mem_map.mp hy
          refine le_trans ?_ (hgap x.1 _ hlt)
          have h1 := hleft x hx
          have h2 := not_lt.mp hc
          rw [abs_of_nonneg (by linarith), abs_of_nonneg (by linarith)]
          linarith)
        (fun h0 hk0 => ihl (depth + 1) h0 _ hpl hk0)
      refine ⟨h3, hf, hk3.of_perm ?_⟩
      have e : candidates ops.distance q (Node.node e i l r).toList ++ A =
          candidates ops.distance q l.toList ++
            (ops.distance q e, i) :: (candidates ops.distance q r.toList ++ A) := by
        simp [candidates, Node.toList]
      rw [e]

/-- An accumulator of at most `K` pairs holds `K` nearest of its own pairs. -/
theorem KBest.self (K : Int) (h : MaxHeap F) (hle : (h.length : Int) ≤ K) : KBest K h h :=
  ⟨[], by simp, hle, fun _ => rfl, fun _ _ _ hy => by simp at hy⟩

/-- C17, as stated, fails. On the spec scenario (points `(0,0)`, `(1,1)`, `(5,5)`, `D = 2`,
`q = (0.5, 0.5)`, `K = 1`, over the reals) the generic `knnSearch` ends with the pair of
idx 1 and the reference procedure with the pair of idx 0. On a tree that is not the result
of `buildKD` (root 5, its right child 0, whose left child is 5; query 6, `K = 2`) even the
distances differ: 6 and 1 against 1 and 1. -/
theorem C17_visit_order_differs :
    Part2.knnSearch (Part2.vectorEmbedding Real.sqrt 2) [1 / 2, 1 / 2]
        (Part2.buildKD (insertionStdSort _) (Part2.vectorEmbedding Real.sqrt 2)
          [([0, 0], 0), ([1, 1], 1), ([5, 5], 2)] 0) 0 1 [] =
      some [(Real.sqrt (1 / 2), 1)] ∧
    knnSearchRef (Part2.vectorEmbedding Real.sqrt 2) [1 / 2, 1 / 2]
        (Part2.buildKD (insertionStdSort _) (Part2.vectorEmbedding Real.sqrt 2)
          [([0, 0], 0), ([1, 1], 1), ([5, 5], 2)] 0) 0 1 [] =
      some [(Real.sqrt (1 / 2), 0)] ∧
    Multiset.ofList [(Real.sqrt (1 / 2), (1 : Int))] ≠
      Multiset.ofList [(Real.sqrt (1 / 2), (0 : Int))] ∧
    Part2.knnSearch Part2.scalarEmbedding (6 : ℚ)
        (Node.node 5 0 Node.nil (Node.node 0 1 (Node.node 5 2 Node.nil Node.nil) Node.nil))
        0 2 [] = some [(6, 1), (1, 0)] ∧
    knnSearchRef Part2.scalarEmbedding (6 : ℚ)
        (Node.node 5 0 Node.nil (Node.node 0 1 (Node.node 5 2 Node.nil Node.nil) Node.nil))
        0 2 [] = some [(1, 0), (1, 2)] := by
  refine ⟨?_, ?_, ?_, by decide!, by decide!⟩
  · rw [scenario_tree_real]; exact scenario_search_real
  · rw [scenario_tree_real]; exact scenario_search_ref_real
  · intro h
    have h1 := Multiset.coe_eq_coe.mp h
    have h2 := List.singleton_perm_singleton.mp h1
    have h3 := congrArg Prod.snd h2
    simp at h3

/-- C17, amended: for every `D ≥ 1`, every tree returned by the generic `buildKD(items, 0)` on
embeddings of length `D`, every query of length `D`, every `K ≥ 1` and every starting
accumulator of at most `K` pairs, the generic `knnSearch` and the reference procedure (near
child, then the node, then the far-child test) both return, and their accumulators hold the
same multiset of distances and the same number of pairs; the idx of equidistant pairs may
differ. `sqrt` is any function that is monotone on non-negative numbers with
`sqrt (x * x) = x` for `x ≥ 0`. -/
theorem C17_visit_order_same_distances (S : StdSort (List F × Int)) (sqrt : F → F) (D : Nat)
    (items : List (List F × Int)) (q : List F) (K : Int) (heap : MaxHeap F)
    (hmono : ∀ x y, 0 ≤ x → x ≤ y → sqrt x ≤ sqrt y)
    (hsq : ∀ x, 0 ≤ x → sqrt (x * x) = x)
    (hD : 1 ≤ D) (_hlen : ∀ it ∈ items, it.1.length = D) (_hq : q.length = D)
    (hK : 1 ≤ K) (hsize : (heap.length : Int) ≤ K) :
    ∃ hcode href,
      Part2.knnSearch (Part2.vectorEmbedding sqrt D) q
        (Part2.buildKD S (Part2.vectorEmbedding sqrt D) items 0) 0 K heap = some hcode ∧
      knnSearchRef (Part2.vectorEmbedding sqrt D) q
        (Part2.buildKD S (Part2.vectorEmbedding sqrt D) items 0) 0 K heap = some href ∧
      Multiset.ofList (hcode.map Prod.fst) = Multiset.ofList (href.map Prod.fst) ∧
      hcode.length = href.length := by
  have hpart := Part2.buildKDAux_partitioned_generic S (Part2.vectorEmbedding sqrt D) hD _
    items 0 (le_refl _)
  have hgap : ∀ p a, a < (Part2.vectorEmbedding sqrt D).Dim →
      abs ((Part2.vectorEmbedding sqrt D).getCoordinate q a -
        (Part2.vectorEmbedding sqrt D).getCoordinate p a) ≤
        (Part2.vectorEmbedding sqrt D).distance q p :=
    fun p a ha => Part2.vector_gap_le_distance_generic sqrt hmono hsq D q p a ha
  obtain ⟨hcode, e1, k1⟩ := Part2.knnSearch_kbest_generic (Part2.vectorEmbedding sqrt D) q K
    hK hD hgap _ 0 heap heap hpart (KBest.self K heap hsize)
  obtain ⟨href, e2, k2⟩ := knnSearchRef_kbest (Part2.vectorEmbedding sqrt D) q K
    hK hD hgap _ 0 heap heap hpart (KBest.self K heap hsize)
  refine ⟨hcode, href, e1, e2, Multiset.coe_eq_coe.mpr ?_, ?_⟩
  · exact k1.dists_eq.trans k2.dists_eq.symm
  · rw [k1.length_eq, k2.length_eq]

/-- C17, amended, over the reals with `Real.sqrt` on the spec scenario. -/
theorem C17_visit_order_same_distances_witness :
    ((∀ x y : ℝ, 0 ≤ x → x ≤ y → Real.sqrt x ≤ Real.sqrt y) ∧
      (∀ x : ℝ, 0 ≤ x → Real.sqrt (x * x) = x) ∧ 1 ≤ 2 ∧
      (∀ it ∈ ([([0, 0], 0), ([1, 1], 1), ([5, 5], 2)] : List (List ℝ × Int)),
        it.1.length = 2) ∧
      ([1 / 2, 1 / 2] : List ℝ).length = 2 ∧ (1 : Int) ≤ 1 ∧
      ((([] : MaxHeap ℝ).length : Nat) : Int) ≤ 1) ∧
    (∃ hcode href,
      Part2.knnSearch (Part2.vectorEmbedding Real.sqrt 2) [1 / 2, 1 / 2]
        (Part2.buildKD (insertionStdSort _) (Part2.vectorEmbedding Real.sqrt 2)
          [([0, 0], 0), ([1, 1], 1), ([5, 5], 2)] 0) 0 1 [] = some hcode ∧
      knnSearchRef (Part2.vectorEmbedding Real.sqrt 2) [1 / 2, 1 / 2]
        (Part2.buildKD (insertionStdSort _) (Part2.vectorEmbedding Real.sqrt 2)
          [([0, 0], 0), ([1, 1], 1), ([5, 5], 2)] 0) 0 1 [] = some href ∧
      Multiset.ofList (hcode.map Prod.fst) = Multiset.ofList (href.map Prod.fst) ∧
      hcode.length = href.length) :=
  ⟨⟨fun _ _ _ h => Real.sqrt_le_sqrt h, fun _ h => Real.sqrt_mul_self h, by decide,
      by simp, by simp, by decide, by simp⟩,
    C17_visit_order_same_distances (insertionStdSort _) Real.sqrt 2 _ _ 1 []
      (fun _ _ _ h => Real.sqrt_le_sqrt h) (fun _ h => Real.sqrt_mul_self h) (by decide)
      (by simp) (by simp) (by decide) (by simp)⟩

/-! ## The axis arguments of the coordinate reads -/

/-- The comparator loop reads coordinates only on the axes `(axis + i) % d` of its
iterations. -/
theorem Part2.itemLessLoop_congr_generic (ops ops' : Part2.Embedding_T E F) (axis d : Nat)
    (A B : E × Int) (is : List Nat)
    (h : ∀ i ∈ is, ∀ x, ops.getCoordinate x ((axis + i) % d) =
      ops'.getCoordinate x ((axis + i) % d)) :
    Part2.itemLessLoop ops axis d A B is = Part2.itemLessLoop ops' axis d A B is := by
  induction is with
  | nil => rfl
  | cons i rest ih =>
    simp only [Part2.itemLessLoop]
    rw [h i (List.mem_cons_self _ _) A.1, h i (List.mem_cons_self _ _) B.1,
      ih (fun j hj => h j (List.mem_cons_of_mem _ hj))]

/-- The comparator of the generic builder reads coordinates only on `comparatorAxes`. -/
theorem Part2.itemLess_congr_generic (ops ops' : Part2.Embedding_T E F) (d depth : Nat)
    (A B : E × Int)
    (h : ∀ ax ∈ Part2.comparatorAxes d depth, ∀ x,
      ops.getCoordinate x ax = ops'.getCoordinate x ax) :
    Part2.itemLess ops (Part2.splitAxis d depth) d A B =
      Part2.itemLess ops' (Part2.splitAxis d depth) d A B := by
  unfold Part2.itemLess
  apply Part2.itemLessLoop_congr_generic
  intro i hi x
  exact h _ (List.mem_map.mpr ⟨i, hi, rfl⟩) x

/-- The generic search reads coordinates only on `searchAxes`. -/
theorem Part2.knnSearch_congr_generic (ops ops' : Part2.Embedding_T E F) (q : E)
    (hdim : ops'.Dim = ops.Dim) (hdist : ops'.distance = ops.distance)
    (h : ∀ depth, ∀ ax ∈ Part2.searchAxes ops.Dim depth, ∀ x,
      ops.getCoordinate x ax = ops'.getCoordinate x ax) :
    ∀ (t : Node E) (depth : Nat) (K : Int) (heap : MaxHeap F),
      Part2.knnSearch ops q t depth K heap = Part2.knnSearch ops' q t depth K heap := by
  intro t
  induction t with
  | nil => intro _ _ _; rfl
  | node e i l r ihl ihr =>
    intro depth K heap
    have hax := h depth (Part2.splitAxis ops.Dim depth) (by simp [Part2.searchAxes])
    simp only [Part2.knnSearch, hdim, hdist, ← hax, ihl, ihr]

/-- For a positive dimension every axis argument is in range. -/
theorem Part2.axes_in_range_generic (d depth : Nat) (hd : 1 ≤ d) :
    Part2.AxesInRange d depth := by
  have hs : Part2.splitAxis d depth < d := by
    unfold Part2.splitAxis
    rw [if_neg (by omega)]
    exact Nat.mod_lt _ (by omega)
  constructor
  · intro ax hax
    obtain ⟨i, _, rfl⟩ := List.mem_map.mp hax
    exact Nat.mod_lt _ (by omega)
  · intro ax hax
    simp only [Part2.searchAxes, List.mem_cons, List.mem_singleton, or_self,
      List.not_mem_nil, or_false] at hax
    rw [hax]
    exact hs

/-- C15, as stated, fails for `D = 0`, the value of the dimension before configuration:
`knnSearch` passes the axis 0 to `getCoordinate`, and 0 is not below 0. The read is real:
with `D = 0`, two coordinate functions that differ on axis 0 only give different results
on the tree with root 5 and left child 4, for the query 0 and `K = 1`. -/
theorem C15_axis_out_of_range_when_D_zero :
    ¬ Part2.AxesInRange 0 0 ∧
    Part2.searchAxes 0 0 = [0, 0] ∧
    Part2.knnSearch
        ({ Dim := 0, distance := fun a b => abs (a - b),
           getCoordinate := fun e ax => if ax = 0 then e else 0 } : Part2.Embedding_T ℚ ℚ)
        0 (Node.node 5 0 (Node.node 4 1 Node.nil Node.nil) Node.nil) 0 1 [] =
      some [(4, 1)] ∧
    Part2.knnSearch
        ({ Dim := 0, distance := fun a b => abs (a - b),
           getCoordinate := fun e ax => if ax = 0 then -e else 0 } : Part2.Embedding_T ℚ ℚ)
        0 (Node.node 5 0 (Node.node 4 1 Node.nil Node.nil) Node.nil) 0 1 [] =
      some [(5, 0)] := by
  refine ⟨?_, rfl, by decide!, by decide!⟩
  intro h
  have := h.2 0 (by simp [Part2.searchAxes, Part2.splitAxis])
  omega

/-- C15, amended: for every depth and every value `D ≥ 1` of the dimension, the axis
argument of every call of `getCoordinate` made by the comparator of the generic `buildKD`
and by the generic `knnSearch` satisfies `0 ≤ axis < D`; for `D = 0` the comparator makes no
call and `knnSearch` passes the axis 0. The comparator and the search read coordinates on
these axes only. -/
theorem C15_axis_in_range (D depth : Nat) (hD : 1 ≤ D) :
    Part2.AxesInRange D depth ∧
    (∀ depth0, Part2.comparatorAxes 0 depth0 = [] ∧ Part2.searchAxes 0 depth0 = [0, 0]) ∧
    (∀ (ops ops' : Part2.Embedding_T E F) (d depth0 : Nat) (A B : E × Int),
      (∀ ax ∈ Part2.comparatorAxes d depth0, ∀ x,
        ops.getCoordinate x ax = ops'.getCoordinate x ax) →
      Part2.itemLess ops (Part2.splitAxis d depth0) d A B =
        Part2.itemLess ops' (Part2.splitAxis d depth0) d A B) ∧
    (∀ (ops ops' : Part2.Embedding_T E F) (q : E),
      ops'.Dim = ops.Dim → ops'.distance = ops.distance →
      (∀ depth0, ∀ ax ∈ Part2.searchAxes ops.Dim depth0, ∀ x,
        ops.getCoordinate x ax = ops'.getCoordinate x ax) →
      ∀ (t : Node E) (depth0 : Nat) (K : Int) (heap : MaxHeap F),
        Part2.knnSearch ops q t depth0 K heap = Part2.knnSearch ops' q t depth0 K heap) :=
  ⟨Part2.axes_in_range_generic D depth hD,
    fun _ => ⟨rfl, rfl⟩,
    fun ops ops' d depth0 A B h => Part2.itemLess_congr_generic ops ops' d depth0 A B h,
    fun ops ops' q hdim hdist h => Part2.knnSearch_congr_generic ops ops' q hdim hdist h⟩

/-- C15, amended, at `D = 2` and depth 3: the comparator reads the axes 1 and 0, the search
reads the axis 1. -/
theorem C15_axis_in_range_witness :
    1 ≤ 2 ∧ Part2.AxesInRange 2 3 ∧ Part2.comparatorAxes 2 3 = [1, 0] ∧
    Part2.searchAxes 2 3 = [1, 1] :=
  ⟨by decide, (@C15_axis_in_range ℚ _ (List ℚ) 2 3 (by decide)).1, by decide, by decide⟩

/-- C19 with `K = 1` on one-node trees, started with an empty accumulator. -/
theorem C19_top_never_read_empty_witness :
    ((1 : Int) ≤ 1) ∧
    ((Part2.knnSearch Part2.scalarEmbedding (5 : ℚ) (Node.node 5 3 Node.nil Node.nil) 0 1
        []).isSome = true ∧
      (Part1.knnSearch (5 : ℚ) (Node.node 5 3 Node.nil Node.nil) 0 1 []).isSome = true ∧
      (∀ d idx, (heapUpdate 1 ([] : MaxHeap ℚ) d idx).isSome = true) ∧
      (∀ g, (exploreFar 1 ([] : MaxHeap ℚ) g).isSome = true) ∧
      (∀ (K0 : Int) (h : MaxHeap ℚ) d idx,
        heapUpdate K0 h d idx = none ↔ ¬ (h.length : Int) < K0 ∧ h = []) ∧
      (∀ (K0 : Int) (h : MaxHeap ℚ) g,
        exploreFar K0 h g = none ↔ ¬ (h.length : Int) < K0 ∧ h = [])) ∧
    Part2.knnSearch Part2.scalarEmbedding (5 : ℚ) (Node.node 5 3 Node.nil Node.nil) 0 0 [] =
      none :=
  ⟨by decide,
    C19_top_never_read_empty Part2.scalarEmbedding 5 _ 5 _ 0 1 [] (by decide),
    by decide!⟩

/-! ## The pruning bound under rounding -/

theorem IsRounding.zero {fl : F → F} (h : IsRounding fl) : fl 0 = 0 := by
  have h1 := h.2.1 0
  rw [neg_zero] at h1
  linarith

/-- The identity is a rounding: exact arithmetic. -/
theorem id_isRounding : IsRounding (fun x : F => x) :=
  ⟨fun _ _ h => h, fun _ => rfl, fun _ => rfl⟩

/-- In exact arithmetic, with `sqrt (x * x) = x` for `x ≥ 0`, every gap survives. -/
theorem Part2.gapSurvives_exact_generic (sqrt : F → F) (hsq : ∀ x, 0 ≤ x → sqrt (x * x) = x)
    (D : Nat) (q : List F) (items : List (List F × Int)) :
    Part2.GapSurvives (fun x => x) sqrt D q items := by
  intro it _ a _
  refine ⟨rfl, ?_⟩
  rw [hsq _ (abs_nonneg _)]

/-- Without rounding the rounded vector instance is the exact one. -/
theorem Part2.roundedVectorEmbedding_id_generic (sqrt : F → F) (D : Nat) :
    Part2.roundedVectorEmbedding (fun x => x) sqrt D = Part2.vectorEmbedding sqrt D := rfl

end Lemmas

end KNN
